import Mathlib

/-!
Verification of the PE2 CLI core: the complexity analyzer, the provider
adapter layer, the response parser/repairer, and the refinement
orchestrator, shallowly embedded from the JavaScript/TypeScript source.

Strings are modelled as Lean `String`/`List Char` over Unicode scalar
values.  JavaScript semantics that the source relies on (regex `\s`,
`String.prototype.split`, truthiness of `||`, `Math.min`/`Math.max`
clamping, `JSON.parse`) are embedded explicitly below, each next to the
definition that uses it.
-/

namespace PE2

/-- The character class matched by `\s` in a JavaScript regular expression
(whitespace, line terminators, NBSP, BOM and the Unicode space separators). -/
def isJsWs (c : Char) : Bool :=
  c == ' ' || c == '\t' || c == '\n' || c == '\r' || c == '\x0b' || c == '\x0c' ||
  c == Char.ofNat 0xa0 || c == Char.ofNat 0x1680 ||
  (Char.ofNat 0x2000 ≤ c && c ≤ Char.ofNat 0x200a) ||
  c == Char.ofNat 0x2028 || c == Char.ofNat 0x2029 || c == Char.ofNat 0x202f ||
  c == Char.ofNat 0x205f || c == Char.ofNat 0x3000 || c == Char.ofNat 0xfeff

/-- Number of maximal runs of JS whitespace in a character list; the second
argument records whether the previous character was whitespace. -/
def wsRunsAux : List Char → Bool → Nat
  | [], _ => 0
  | c :: rest, inRun =>
    if isJsWs c then (if inRun then 0 else 1) + wsRunsAux rest true
    else wsRunsAux rest false

/-- Length of the array produced by JavaScript
`str.split(/\s+/)`: one piece more than the number of maximal whitespace
runs (a leading or trailing run contributes an empty piece, and
`"".split` yields `[""]`). -/
def jsSplitWsCount (cs : List Char) : Nat := wsRunsAux cs false + 1

/-- `isPrefixCh pat hay` is true when `pat` is a prefix of `hay`. -/
def isPrefixCh : List Char → List Char → Bool
  | [], _ => true
  | _ :: _, [] => false
  | p :: ps, h :: hs => p == h && isPrefixCh ps hs

/-- `containsSub hay pat`: JavaScript `hay.includes(pat)`, substring search. -/
def containsSub : List Char → List Char → Bool
  | hay@(_ :: rest), pat => isPrefixCh pat hay || containsSub rest pat
  | [], pat => pat.isEmpty

/-- JavaScript `toLowerCase`, restricted to its ASCII behaviour (every
input the analyzer's keyword tables can react to is ASCII). -/
def toLowerJs (cs : List Char) : List Char := cs.map Char.toLower

/-- Technical keyword table of `analyzePromptComplexity`. -/
def techKeywords : List String :=
  ["algorithm","framework","architecture","microservice","database","api","sdk","ml","ai",
   "neural","blockchain","docker","kubernetes","encryption","protocol","latency","throughput",
   "concurrency","distributed","cloud","python","javascript","java","c++","rust","go"]

/-- Domain keyword table of `analyzePromptComplexity`. -/
def domainKeywords : List String :=
  ["regulation","compliance","governance","strategy","analytics","research","finance",
   "biotech","healthcare","supply chain","marketing","production","enterprise"]

/-- Logical-connective table of `analyzePromptComplexity` (note the
significant surrounding spaces, taken verbatim from the source). -/
def logicWords : List String :=
  [" if "," then "," when "," unless "," until ","depending on","while "]

/-- How many entries of `kws` occur as substrings of `lower`
(`keywords.filter(kw => promptLower.includes(kw)).length`). -/
def countHits (lower : List Char) (kws : List String) : Nat :=
  (kws.filter (fun kw => containsSub lower kw.data)).length

/-- `anyTails P l`: does `P` hold of some nonempty suffix of `l`?  This is
how a JavaScript regex `test` scans its subject, trying each start
position in turn. -/
def anyTails (P : List Char → Bool) : List Char → Bool
  | [] => false
  | cs@(_ :: rest) => P cs || anyTails P rest

/-- Does the regex `/\n\s*\d+\./` match at the head of this suffix?
(Newline, then a greedy whitespace run, then a nonempty digit run, then a
dot; as argued from the character classes, the regex engine's
backtracking can never produce a match the greedy reading misses.) -/
def numberedListAt (cs : List Char) : Bool :=
  match cs with
  | c :: rest =>
    c == '\n' &&
      (let r := rest.dropWhile isJsWs
       let ds := r.takeWhile Char.isDigit
       !ds.isEmpty &&
         (match r.drop ds.length with
          | '.' :: _ => true
          | _ => false))
  | [] => false

/-- `/\n\s*\d+\./.test(rawPrompt)`: the pattern matches at some position. -/
def testNumberedList : List Char → Bool := anyTails numberedListAt

/-- Does the bullet regex (newline, then `\s*`, then a dash) match at the
head of this suffix? -/
def bulletAt (cs : List Char) : Bool :=
  match cs with
  | c :: rest =>
    c == '\n' &&
      (match rest.dropWhile isJsWs with
       | '-' :: _ => true
       | _ => false)
  | [] => false

/-- The bullet regex tested against the whole text. -/
def testBullet : List Char → Bool := anyTails bulletAt

/-- The backtick character. -/
def backtickCh : Char := Char.ofNat 96

/-- A code fence: the text contains three consecutive backticks. -/
def testCodeFence (cs : List Char) : Bool :=
  containsSub cs [backtickCh, backtickCh, backtickCh]

/-- `/#/.test(rawPrompt)`. -/
def testHash (cs : List Char) : Bool := cs.any (· == '#')

/-- `(rawPrompt.match(/[;\{\[]/g) || []).length`: count of `;`, `{`, `[`. -/
def specialCount (cs : List Char) : Nat :=
  cs.countP (fun c => c == ';' || c == Char.ofNat 123 || c == '[')

/-- The difficulty tiers of the analyzer. -/
inductive Difficulty where
  | NOVICE | INTERMEDIATE | ADVANCED | EXPERT | MASTER
deriving DecidableEq, Repr

/-- Result record of `analyzePromptComplexity`. -/
structure ComplexityResult where
  difficulty : Difficulty
  iterations : Nat
  score : Nat
deriving DecidableEq, Repr

/-- The six-part heuristic sum of `analyzePromptComplexity`
(length bucket, capped technical / domain / structural / logical hit
counts, special-character density bonus). -/
def complexityScore (rawPrompt : String) : Nat :=
  let cs := rawPrompt.data
  let lower := toLowerJs cs
  let words := jsSplitWsCount cs
  let lengthScore : Nat :=
    if 400 < words then 4 else if 250 < words then 3
    else if 120 < words then 2 else if 60 < words then 1 else 0
  let techHits := countHits lower techKeywords
  let domainHits := countHits lower domainKeywords
  let structuralHits :=
    (if testNumberedList cs then 1 else 0) + (if testBullet cs then 1 else 0) +
    (if testCodeFence cs then 1 else 0) + (if testHash cs then 1 else 0)
  let logicHits := countHits lower logicWords
  let special := specialCount cs
  let specialScore : Nat := if 5 ≤ special then 2 else if 2 ≤ special then 1 else 0
  lengthScore + min techHits 4 + min domainHits 3 + min structuralHits 4 +
    min logicHits 3 + specialScore

/-- The score-to-tier band table of `analyzePromptComplexity`. -/
def bandDifficulty (score : Nat) : Difficulty :=
  if score ≤ 4 then .NOVICE else if score ≤ 8 then .INTERMEDIATE
  else if score ≤ 12 then .ADVANCED else if score ≤ 16 then .EXPERT else .MASTER

/-- The score-to-iteration-count band table of `analyzePromptComplexity`. -/
def bandIterations (score : Nat) : Nat :=
  if score ≤ 4 then 1 else if score ≤ 8 then 2
  else if score ≤ 12 then 3 else if score ≤ 16 then 4 else 5

/-- `analyzePromptComplexity` from the source: the heuristic score and the
band mapping applied to it. -/
def analyzePromptComplexity (rawPrompt : String) : ComplexityResult :=
  let s := complexityScore rawPrompt
  { difficulty := bandDifficulty s, iterations := bandIterations s, score := s }

/-- `n` repetitions of the two-character padding block `" o"`. -/
def repChars : Nat → List Char
  | 0 => []
  | n + 1 => ' ' :: 'o' :: repChars n

/-- The interesting 42 characters of the example input: five technical
keywords, two conditional connectives, and a numbered-list line. -/
def coreChars : List Char := "sdk ml rust docker cloud o if o when o\n1.".data

/-- The full example text: the core followed by 489 padding words. -/
def c5chars : List Char := coreChars ++ repChars 489

/-- The example input as a string (500 words in all). -/
def c5input : String := String.mk c5chars

/-- The whitespace state after scanning a character list (true when the
last character scanned was whitespace; the boolean is the incoming state). -/
def endWsState : List Char → Bool → Bool
  | [], b => b
  | c :: rest, _ => endWsState rest (isJsWs c)

/-! ## Refinement orchestrator

`processPrompt` performs one initial generation, then a `for` loop of up
to `recommendedIterations` refinement calls.  Each call either yields a
parsed prompt plus an edits string, or `null` (on a parse failure or a
thrown backend error), in which case the loop `break`s.  The backend is
external I/O, so the embedding abstracts the two call sites as oracles:
`init` is the outcome of `generateInitialPrompt` and `refine j` the
outcome of the `j`-th (0-based) `refinePrompt` call, whose on-screen
iteration number is `j + 2`.  The prompt type is a parameter because the
source stores whatever object the parser produced. -/

/-- One entry of the refinement history
(`refinementHistory.push({ iteration, edits })`). -/
structure HistEntry where
  iteration : Nat
  edits : String
deriving DecidableEq, Repr

/-- The refinement `for` loop of `processPrompt`: `remaining` loop turns
are left, `j` is the 0-based index of the next turn, `w` the working
prompt and `h` the history so far.  A `none` from the oracle is the
`if (!refinedPrompt) break` path. -/
def refineLoop {α : Type} (refine : Nat → Option (α × String)) :
    Nat → Nat → α → List HistEntry → α × List HistEntry
  | 0, _, w, h => (w, h)
  | remaining + 1, j, w, h =>
    match refine j with
    | none => (w, h)
    | some (p, e) => refineLoop refine remaining (j + 1) p (h ++ [⟨j + 2, e⟩])

/-- Core of `processPrompt`: a `none` initial outcome aborts with no
result (`Failed`); otherwise the initial entry is numbered 1 and the
refinement loop runs with budget `n`, after which the run completes
(`Done`) with the final working prompt and the accumulated history. -/
def processPromptCore {α : Type} (init : Option (α × String))
    (refine : Nat → Option (α × String)) (n : Nat) : Option (α × List HistEntry) :=
  match init with
  | none => none
  | some (p, e) => some (refineLoop refine n 0 p [⟨1, e⟩])

/-! ## Provider adapter layer

Each adapter's `create` is embedded up to (but not including) its network
call: an `Except.ok` value is exactly the outbound request body the
adapter would post, so "no network call is attempted" is the statement
that `create` returns an `Except.error`.  Numeric fields are modelled as
`Rat` (the clamping arithmetic involved never distinguishes doubles from
rationals on the values concerned). -/

/-- A chat message as the adapters receive it. -/
structure ChatMessage where
  role : String
  content : String
deriving DecidableEq, Repr

/-- The completion-request shape shared by the adapter layer.  An absent
(`undefined`) optional field is `none`; a missing or non-string model is
modelled by the empty string, which the source's `!opts.model` check
treats identically. -/
structure CompletionRequest where
  model : String := ""
  messages : List ChatMessage := []
  max_tokens : Option Rat := none
  temperature : Option Rat := none
  top_p : Option Rat := none
  top_k : Option Rat := none
  frequency_penalty : Option Rat := none
  presence_penalty : Option Rat := none
  stream : Option Bool := none
  stop : Option (List String) := none
  stop_sequences : Option (List String) := none
  user : Option String := none
  safety_settings : Option (List (String × String)) := none
deriving DecidableEq, Repr

/-- JavaScript `x || d` for an optional number: `undefined` and `0` are
falsy and replaced by the default. -/
def jsOrNum (x : Option Rat) (d : Rat) : Rat :=
  match x with
  | none => d
  | some v => if v = 0 then d else v

/-- JavaScript `x && …` presence for an optional string: `undefined` and
the empty string are falsy, so the field is omitted. -/
def jsTruthyStrOpt (x : Option String) : Option String :=
  match x with
  | some s => if s == "" then none else some s
  | none => none

/-- Is this role one of the three allowed values? -/
def roleAllowed (r : String) : Bool :=
  r == "system" || r == "user" || r == "assistant"

/-- The per-message validation loop shared verbatim by the OpenAI,
OpenRouter, Anthropic and Google adapters; the first offending message
determines the thrown error. -/
def validateMessageList : List ChatMessage → Option String
  | [] => none
  | m :: rest =>
    if m.role == "" || !roleAllowed m.role then
      some ("Invalid message role: " ++ m.role ++
        ". Must be \x27system\x27, \x27user\x27, or \x27assistant\x27")
    else if m.content == "" then
      some "Message content is required and must be a string"
    else validateMessageList rest

/-- The request-level validation shared by those four adapters
(`provider` names the adapter in the thrown message). -/
def validateRequest (provider : String) (req : CompletionRequest) : Option String :=
  if req.model == "" then
    some (provider ++ " model parameter is required and must be a string")
  else if req.messages.isEmpty then
    some (provider ++ " messages parameter is required and must be a non-empty array")
  else validateMessageList req.messages

/-- The uniform §4.2 validity of a request: non-empty model, non-empty
message list, every role allowed, every content non-empty. -/
def validRequestB (req : CompletionRequest) : Bool :=
  req.model != "" && !req.messages.isEmpty &&
    req.messages.all (fun m => roleAllowed m.role && m.content != "")

/-- JavaScript `Array.prototype.join(sep)`. -/
def joinWith (sep : String) : List String → String
  | [] => ""
  | [x] => x
  | x :: y :: xs => x ++ sep ++ joinWith sep (y :: xs)

/-- The request body `createOpenAIClient` hands to the OpenAI SDK. -/
structure OpenAIWire where
  model : String
  messages : List ChatMessage
  max_tokens : Rat
  temperature : Rat
  top_p : Rat
  frequency_penalty : Rat
  presence_penalty : Rat
  stream : Bool
  stop : Option (List String)
  user : Option String
deriving DecidableEq, Repr

/-- `createOpenAIClient`'s `create` up to the network call: validate,
then default and clamp (`temperature` into [0,2], `top_p` into [0,1],
penalties into [-2,2]). -/
def openaiCreate (req : CompletionRequest) : Except String OpenAIWire :=
  match validateRequest "OpenAI" req with
  | some e => .error e
  | none => .ok {
      model := req.model
      messages := req.messages
      max_tokens := jsOrNum req.max_tokens 2048
      temperature := (req.temperature.map (fun t => max 0 (min 2 t))).getD 0.7
      top_p := (req.top_p.map (fun v => max 0 (min 1 v))).getD 1
      frequency_penalty := (req.frequency_penalty.map (fun v => max (-2) (min 2 v))).getD 0
      presence_penalty := (req.presence_penalty.map (fun v => max (-2) (min 2 v))).getD 0
      stream := req.stream.getD false
      stop := req.stop
      user := jsTruthyStrOpt req.user }

/-- The request body the OpenRouter client posts (OpenAI-compatible
shape; the two extra identification headers are fixed strings carried
outside this body). -/
structure OpenRouterWire where
  model : String
  messages : List ChatMessage
  max_tokens : Rat
  temperature : Rat
  top_p : Rat
  frequency_penalty : Rat
  presence_penalty : Rat
  stream : Bool
  stop : Option (List String)
  user : Option String
deriving DecidableEq, Repr

/-- `OpenRouterClient.chat.completions.create` up to the `fetch` call. -/
def openrouterCreate (req : CompletionRequest) : Except String OpenRouterWire :=
  match validateRequest "OpenRouter" req with
  | some e => .error e
  | none => .ok {
      model := req.model
      messages := req.messages
      max_tokens := jsOrNum req.max_tokens 2048
      temperature := (req.temperature.map (fun t => max 0 (min 2 t))).getD 0.7
      top_p := (req.top_p.map (fun v => max 0 (min 1 v))).getD 1
      frequency_penalty := (req.frequency_penalty.map (fun v => max (-2) (min 2 v))).getD 0
      presence_penalty := (req.presence_penalty.map (fun v => max (-2) (min 2 v))).getD 0
      stream := req.stream.getD false
      stop := req.stop
      user := jsTruthyStrOpt req.user }

/-- The parameter object `createAnthropicClient` hands to
`anthropic.messages.create`.  Optional fields are spread in only when
their source value is truthy. -/
structure AnthropicWire where
  model : String
  messages : List ChatMessage
  max_tokens : Rat
  system : Option String
  temperature : Option Rat
  top_p : Option Rat
  stop_sequences : Option (List String)
  stream : Option Bool
deriving DecidableEq, Repr

/-- `createAnthropicClient`'s `create` up to the network call: validate;
split out the system messages and join them with blank lines; insist the
remaining conversation starts with a user message; clamp `temperature`
and `top_p` into [0,1]; keep at most the first 4 stop sequences. -/
def anthropicCreate (req : CompletionRequest) : Except String AnthropicWire :=
  match validateRequest "Anthropic" req with
  | some e => .error e
  | none =>
    let systemMessages := req.messages.filter (fun m => m.role == "system")
    let conversationMessages := req.messages.filter (fun m => m.role != "system")
    if (match conversationMessages with
        | m :: _ => m.role != "user"
        | [] => false) then
      .error "Anthropic conversation must start with a user message"
    else
      .ok {
        model := req.model
        messages := conversationMessages
        max_tokens := jsOrNum req.max_tokens 2048
        system :=
          if systemMessages.isEmpty then none
          else jsTruthyStrOpt (some (joinWith "\n\n" (systemMessages.map ChatMessage.content)))
        temperature := req.temperature.map (fun t => max 0 (min 1 t))
        top_p := req.top_p.map (fun v => max 0 (min 1 v))
        stop_sequences := req.stop_sequences.map (fun l => l.take 4)
        stream := match req.stream with | some true => some true | _ => none }

/-- One content block of an Anthropic response. -/
structure AnthropicBlock where
  btype : String
  btext : Option String
deriving DecidableEq, Repr

/-- Text extraction from the block-array form of an Anthropic response:
`content.filter(b => b.type === 'text').map(b => b.text || '').join('')`. -/
def anthropicExtractText (blocks : List AnthropicBlock) : String :=
  String.join ((blocks.filter (fun b => b.btype == "text")).map (fun b => b.btext.getD ""))

/-- One Gemini-format turn. -/
structure GeminiTurn where
  grole : String
  gtext : String
deriving DecidableEq, Repr

/-- The Gemini default safety thresholds applied when the caller does not
override them. -/
def defaultSafetySettings : List (String × String) :=
  [("HARM_CATEGORY_HARASSMENT", "BLOCK_MEDIUM_AND_ABOVE"),
   ("HARM_CATEGORY_HATE_SPEECH", "BLOCK_MEDIUM_AND_ABOVE"),
   ("HARM_CATEGORY_SEXUALLY_EXPLICIT", "BLOCK_MEDIUM_AND_ABOVE"),
   ("HARM_CATEGORY_DANGEROUS_CONTENT", "BLOCK_MEDIUM_AND_ABOVE")]

/-- Everything `createGoogleClient` assembles before its network call:
system instruction outside the history, roles remapped
(assistant→model), prior turns as history and the final turn as the live
input, clamped generation config, at most 5 stop sequences, defaulted
safety settings. -/
structure GoogleWire where
  model : String
  systemInstruction : Option String
  history : List GeminiTurn
  contents : List GeminiTurn
  maxOutputTokens : Rat
  temperature : Option Rat
  topP : Option Rat
  topK : Option Rat
  stopSequences : Option (List String)
  safetySettings : List (String × String)
deriving DecidableEq, Repr

/-- `createGoogleClient`'s `create` up to the network call. -/
def googleCreate (req : CompletionRequest) : Except String GoogleWire :=
  match validateRequest "Google" req with
  | some e => .error e
  | none =>
    let systemMessages := req.messages.filter (fun m => m.role == "system")
    let conversationMessages := req.messages.filter (fun m => m.role != "system")
    let mapped := conversationMessages.map (fun m =>
      { grole := if m.role == "assistant" then "model" else "user"
        gtext := m.content : GeminiTurn })
    .ok {
      model := req.model
      systemInstruction :=
        if systemMessages.isEmpty then none
        else some (joinWith "\n\n" (systemMessages.map ChatMessage.content))
      history := mapped.dropLast
      contents := match mapped.getLast? with | some t => [t] | none => []
      maxOutputTokens := jsOrNum req.max_tokens 2048
      temperature := req.temperature.map (fun t => max 0 (min 2 t))
      topP := req.top_p.map (fun v => max 0 (min 1 v))
      topK := req.top_k.map (fun v => max 1 (min 100 v))
      stopSequences := req.stop_sequences.map (fun l => l.take 5)
      safetySettings := req.safety_settings.getD defaultSafetySettings }

/-- The body `createOllamaClient` posts to `/api/chat`. -/
structure OllamaWire where
  model : String
  messages : List ChatMessage
  stream : Bool
  num_predict : Rat
deriving DecidableEq, Repr

/-- `createOllamaClient`'s `create`: there is no validation at all — the
request is posted as-is (the destructuring defaults `max_tokens = 2048`
and `stream = false` apply only to absent fields). -/
def ollamaCreate (req : CompletionRequest) : Except String OllamaWire :=
  .ok {
    model := req.model
    messages := req.messages
    stream := req.stream.getD false
    num_predict := req.max_tokens.getD 2048 }

/-- A concrete invalid request: disallowed role and empty content. -/
def invalidReq : CompletionRequest :=
  { model := "m", messages := [{ role := "tool", content := "" }] }

/-- A concrete valid request carrying an out-of-range temperature and top_p. -/
def clampReq : CompletionRequest :=
  { model := "m", messages := [{ role := "user", content := "hi" }],
    temperature := some 5, top_p := some (-1) }

/-- A concrete valid request with two system messages, a leading user
message, and six stop sequences. -/
def anthropicReq : CompletionRequest :=
  { model := "m",
    messages := [{ role := "system", content := "a" },
                 { role := "system", content := "b" },
                 { role := "user", content := "hi" }],
    stop_sequences := some ["1", "2", "3", "4", "5", "6"] }

/-! ## Response parser / repairer

`generateInitialPrompt` and `refinePrompt` share tiers 1 and 2 verbatim:
a strict `JSON.parse` of the whole response, then brace-matched
extraction with trailing-comma stripping and per-field placeholder
synthesis.  Only the initial-generation path adds the per-field regex
tier and an unconditional fallback record.  `JSON.parse` is embedded as
a fueled recursive-descent parser over `List Char`; the fuel
`2 * length + 2` cannot run out, because every recursive call is
preceded by the consumption of at least one character and each consumed
character funds at most two calls. -/

/-- JSON whitespace: exactly the four characters `JSON.parse` skips. -/
def isJsonWs (c : Char) : Bool :=
  c == ' ' || c == '\t' || c == '\n' || c == '\r'

/-- A parsed JSON value.  Object members are kept in source order with
duplicates (JavaScript's last-occurrence-wins lookup is in `jsGetField`);
numbers keep their lexeme, which is all the parse pipeline ever uses. -/
inductive Json where
  | null : Json
  | bool (b : Bool) : Json
  | num (lexeme : String) : Json
  | str (s : String) : Json
  | arr (elems : List Json) : Json
  | obj (members : List (String × Json)) : Json

/-- Value of one hexadecimal digit. -/
def hexVal? (c : Char) : Option Nat :=
  if '0' ≤ c ∧ c ≤ '9' then some (c.toNat - '0'.toNat)
  else if 'a' ≤ c ∧ c ≤ 'f' then some (c.toNat - 'a'.toNat + 10)
  else if 'A' ≤ c ∧ c ≤ 'F' then some (c.toNat - 'A'.toNat + 10)
  else none

/-- One escape sequence after a backslash.  A `\u` escape must be four
hex digits; values that are surrogate halves (expressible in a
JavaScript string but not as a Unicode scalar `Char`) are treated as
unparseable by this embedding. -/
def parseEscape : List Char → Option (Char × List Char)
  | c :: rest =>
    if c == '"' then some ('"', rest)
    else if c == '\\' then some ('\\', rest)
    else if c == '/' then some ('/', rest)
    else if c == 'b' then some ('\x08', rest)
    else if c == 'f' then some ('\x0c', rest)
    else if c == 'n' then some ('\n', rest)
    else if c == 'r' then some ('\r', rest)
    else if c == 't' then some ('\t', rest)
    else if c == 'u' then
      match rest with
      | a :: b :: c2 :: d :: rest2 =>
        (match hexVal? a, hexVal? b, hexVal? c2, hexVal? d with
         | some x, some y, some z, some w =>
           let n := ((x * 16 + y) * 16 + z) * 16 + w
           if n < 0xd800 || (0xdfff < n && n < 0x110000) then some (Char.ofNat n, rest2)
           else none
         | _, _, _, _ => none)
      | _ => none
    else none
  | [] => none

/-- The body of a JSON string after its opening quote: characters up to
the closing quote with escapes decoded; unescaped control characters are
refused. -/
def parseStringBody : Nat → List Char → Option (List Char × List Char)
  | 0, _ => none
  | _ + 1, [] => none
  | fuel + 1, c :: rest =>
    if c == '"' then some ([], rest)
    else if c == '\\' then
      match parseEscape rest with
      | some (e, rest2) =>
        (match parseStringBody fuel rest2 with
         | some (s, r) => some (e :: s, r)
         | none => none)
      | none => none
    else if c.toNat < 0x20 then none
    else
      match parseStringBody fuel rest with
      | some (s, r) => some (c :: s, r)
      | none => none

/-- A maximal digit run and what follows it. -/
def digitSpan (cs : List Char) : List Char × List Char :=
  (cs.takeWhile Char.isDigit, cs.dropWhile Char.isDigit)

/-- The JSON integer part: `0`, or a nonzero digit followed by digits. -/
def parseIntPart : List Char → Option (List Char × List Char)
  | '0' :: rest =>
    (match rest with
     | d :: _ => if d.isDigit then none else some (['0'], rest)
     | [] => some (['0'], []))
  | c :: rest =>
    if c.isDigit then
      let (ds, r) := digitSpan rest
      some (c :: ds, r)
    else none
  | [] => none

/-- The optional JSON fraction part: a dot and at least one digit. -/
def parseFracPart : List Char → Option (List Char × List Char)
  | '.' :: rest =>
    let (ds, r) := digitSpan rest
    if ds.isEmpty then none else some ('.' :: ds, r)
  | cs => some ([], cs)

/-- The optional JSON exponent part. -/
def parseExpPart : List Char → Option (List Char × List Char)
  | c :: rest =>
    if c == 'e' || c == 'E' then
      match rest with
      | s :: rest2 =>
        if s == '+' || s == '-' then
          let (ds, r) := digitSpan rest2
          if ds.isEmpty then none else some (c :: s :: ds, r)
        else
          let (ds, r) := digitSpan rest
          if ds.isEmpty then none else some (c :: ds, r)
      | [] => none
    else some ([], c :: rest)
  | [] => some ([], [])

/-- The JSON number grammar, returning the lexeme. -/
def parseNumber (cs : List Char) : Option (List Char × List Char) :=
  match cs with
  | '-' :: rest =>
    (match parseIntPart rest with
     | some (ip, r1) =>
       (match parseFracPart r1 with
        | some (fp, r2) =>
          (match parseExpPart r2 with
           | some (ep, r3) => some ('-' :: (ip ++ fp ++ ep), r3)
           | none => none)
        | none => none)
     | none => none)
  | _ =>
    match parseIntPart cs with
    | some (ip, r1) =>
      (match parseFracPart r1 with
       | some (fp, r2) =>
         (match parseExpPart r2 with
          | some (ep, r3) => some (ip ++ fp ++ ep, r3)
          | none => none)
       | none => none)
    | none => none

mutual

/-- A JSON value at the head of the input (whitespace already skipped by
the caller). -/
def parseValue : Nat → List Char → Option (Json × List Char)
  | 0, _ => none
  | fuel + 1, cs =>
    match cs with
    | '"' :: rest =>
      (match parseStringBody fuel rest with
       | some (s, r) => some (.str (String.mk s), r)
       | none => none)
    | '\x7b' :: rest =>
      (match rest.dropWhile isJsonWs with
       | '\x7d' :: r2 => some (.obj [], r2)
       | cs1 =>
         match parseMembersBody fuel cs1 with
         | some (ms, r) => some (.obj ms, r)
         | none => none)
    | '[' :: rest =>
      (match rest.dropWhile isJsonWs with
       | ']' :: r2 => some (.arr [], r2)
       | cs1 =>
         match parseElemsBody fuel cs1 with
         | some (es, r) => some (.arr es, r)
         | none => none)
    | 't' :: 'r' :: 'u' :: 'e' :: rest => some (.bool true, rest)
    | 'f' :: 'a' :: 'l' :: 's' :: 'e' :: rest => some (.bool false, rest)
    | 'n' :: 'u' :: 'l' :: 'l' :: rest => some (.null, rest)
    | c :: _ =>
      if c == '-' || c.isDigit then
        match parseNumber cs with
        | some (lex, r) => some (.num (String.mk lex), r)
        | none => none
      else none
    | [] => none
termination_by structural fuel _ => fuel

/-- The nonempty member list of an object, starting at the first key's
quote and consuming through the closing brace. -/
def parseMembersBody : Nat → List Char → Option (List (String × Json) × List Char)
  | 0, _ => none
  | fuel + 1, cs =>
    match cs with
    | '"' :: rest =>
      (match parseStringBody fuel rest with
       | some (k, r1) =>
         (match r1.dropWhile isJsonWs with
          | ':' :: r2 =>
            (match parseValue fuel (r2.dropWhile isJsonWs) with
             | some (v, r3) =>
               (match r3.dropWhile isJsonWs with
                | ',' :: r4 =>
                  (match parseMembersBody fuel (r4.dropWhile isJsonWs) with
                   | some (ms, r5) => some ((String.mk k, v) :: ms, r5)
                   | none => none)
                | '\x7d' :: r4 => some ([(String.mk k, v)], r4)
                | _ => none)
             | none => none)
          | _ => none)
       | none => none)
    | _ => none
termination_by structural fuel _ => fuel

/-- The nonempty element list of an array, consuming through the closing
bracket. -/
def parseElemsBody : Nat → List Char → Option (List Json × List Char)
  | 0, _ => none
  | fuel + 1, cs =>
    match parseValue fuel cs with
    | some (v, r1) =>
      (match r1.dropWhile isJsonWs with
       | ',' :: r2 =>
         (match parseElemsBody fuel (r2.dropWhile isJsonWs) with
          | some (es, r3) => some (v :: es, r3)
          | none => none)
       | ']' :: r2 => some ([v], r2)
       | _ => none)
    | none => none
termination_by structural fuel _ => fuel

end

/-- `JSON.parse`: skip leading whitespace, read one value, require only
whitespace after it. -/
def parseJsonText (cs : List Char) : Option Json :=
  match parseValue (2 * cs.length + 2) (cs.dropWhile isJsonWs) with
  | some (v, rest) => if (rest.dropWhile isJsonWs).isEmpty then some v else none
  | none => none

/-- The match of `\s*[}\]]` directly after a comma: the maximal JS
whitespace run, then a closing brace or bracket. -/
def wsThenClose (cs : List Char) : Option (List Char × Char × List Char) :=
  match cs.dropWhile isJsWs with
  | c :: rest =>
    if c == '\x7d' || c == ']' then some (cs.takeWhile isJsWs, c, rest) else none
  | [] => none

/-- JavaScript `str.replace(/,(\s*[}\]])/g, "$1")`: every comma directly
preceding (whitespace and) a closing brace or bracket is deleted;
scanning resumes after the matched closing character. -/
def stripTrailingCommas : Nat → List Char → List Char
  | 0, cs => cs
  | _ + 1, [] => []
  | fuel + 1, c :: rest =>
    if c == ',' then
      match wsThenClose rest with
      | some (ws, cl, rest2) => ws ++ cl :: stripTrailingCommas fuel rest2
      | none => c :: stripTrailingCommas fuel rest
    else c :: stripTrailingCommas fuel rest

/-- Does the trailing-comma regex match anywhere in the text? -/
def hasTrailingCommaPat : List Char → Bool
  | [] => false
  | c :: rest => (c == ',' && (wsThenClose rest).isSome) || hasTrailingCommaPat rest

/-- JavaScript `indexOf` of a single character. -/
def idxOf? (c : Char) : List Char → Option Nat
  | [] => none
  | d :: rest => if d == c then some 0 else (idxOf? c rest).map (· + 1)

/-- JavaScript `lastIndexOf` of a single character. -/
def lastIdxOf? (c : Char) (cs : List Char) : Option Nat :=
  match idxOf? c cs.reverse with
  | some k => some (cs.length - 1 - k)
  | none => none

/-- The tier-2 candidate: the substring from the first `{` to the last
`}` inclusive, provided both exist with the `}` strictly later. -/
def braceSlice (content : List Char) : Option (List Char) :=
  match idxOf? '\x7b' content, lastIdxOf? '\x7d' content with
  | some i, some j => if i < j then some ((content.drop i).take (j + 1 - i)) else none
  | _, _ => none

/-- Tier-2 re-parse: slice, strip trailing commas, parse strictly. -/
def tier2Parse (content : List Char) : Option Json :=
  (braceSlice content).bind fun s =>
    parseJsonText (stripTrailingCommas (s.length + 1) s)

/-- The five required fields of a PE2 record. -/
def requiredFields : List String := ["context", "role", "task", "constraints", "output"]

/-- JavaScript property read on a parsed value (`JSON.parse` keeps the
last of duplicate keys); primitives have no own properties. -/
def jsGetField (v : Json) (k : String) : Option Json :=
  match v with
  | .obj ms => (ms.reverse.find? (fun m => m.1 == k)).map (fun m => m.2)
  | _ => none

/-- `parsed.hasOwnProperty(k)` for a parsed value. -/
def jsHasOwn (v : Json) (k : String) : Bool := (jsGetField v k).isSome

/-- JavaScript truthiness of a parsed JSON value: `null`, `false`, the
empty string and numeric zero are falsy; arrays and objects are truthy. -/
def jsTruthy (v : Json) : Bool :=
  match v with
  | .null => false
  | .bool b => b
  | .str s => s != ""
  | .num lex =>
    (lex.data.takeWhile (fun c => c != 'e' && c != 'E')).any
      (fun c => c.isDigit && c != '0')
  | .arr _ => true
  | .obj _ => true

/-- `parsed.field || placeholder`. -/
def jsFieldOr (v : Json) (k : String) (d : Json) : Json :=
  match jsGetField v k with
  | some x => if jsTruthy x then x else d
  | none => d

/-- The tier-2 field synthesis: each of the five fields taken from the
parsed object when truthy, else its fixed placeholder. -/
def fillMissingFields (parsed : Json) : Json :=
  .obj [("context", jsFieldOr parsed "context" (.str "No context provided")),
        ("role", jsFieldOr parsed "role" (.str "Expert assistant")),
        ("task", jsFieldOr parsed "task" (.str "Complete the requested task")),
        ("constraints", jsFieldOr parsed "constraints" (.str "Follow best practices")),
        ("output", jsFieldOr parsed "output" (.str "Provide appropriate output"))]

/-- Tier 2 with the caller's two edits labels: accept the re-parsed
value as-is when all five fields are own properties, else synthesize. -/
def tier2Full (editsAll editsFill : String) (content : List Char) :
    Option (Json × String) :=
  (tier2Parse content).map fun parsed =>
    if requiredFields.all (fun f => jsHasOwn parsed f) then (parsed, editsAll)
    else (fillMissingFields parsed, editsFill)

/-! ### The per-field regex tier of `generateInitialPrompt` -/

/-- JavaScript `trim()`. -/
def trimJs (s : List Char) : List Char :=
  ((s.dropWhile isJsWs).reverse.dropWhile isJsWs).reverse

/-- Case-insensitive match of a literal at the head (the `i` flag). -/
def matchLitCI : List Char → List Char → Option (List Char)
  | [], rest => some rest
  | _ :: _, [] => none
  | c :: cs, d :: ds => if c.toLower == d.toLower then matchLitCI cs ds else none

/-- The capture of `\s*([^…]+)`: the regex takes the greedy whitespace
run, then needs one non-excluded character; failing that it gives
whitespace back one character at a time, so the capture can begin at the
last non-excluded whitespace character. -/
def wsStarCapture (excluded : Char → Bool) (cs : List Char) : Option (List Char) :=
  let ws := cs.takeWhile isJsWs
  let r := cs.dropWhile isJsWs
  let backtrack : Option (List Char) :=
    match ws.reverse.findIdx? (fun c => !excluded c) with
    | some j =>
      let k := ws.length - 1 - j
      some ((ws.drop k ++ r).takeWhile (fun d => !excluded d))
    | none => none
  match r with
  | c :: _ =>
    if excluded c then backtrack
    else some (r.takeWhile (fun d => !excluded d))
  | [] => backtrack

/-- Patterns 1–3 of `extractField` at one position: optionally quoted
field name, colon, whitespace, quoted capture.  (The whitespace runs
cannot end at a colon or quote, so the greedy reading is exact.) -/
def fieldPatternAt (nameQuote : Option Char) (valQuote : Char) (fname : List Char)
    (cs : List Char) : Option (List Char) :=
  let step1 : Option (List Char) :=
    match nameQuote with
    | some q =>
      (match cs with
       | c :: rest =>
         if c == q then
           (matchLitCI fname rest).bind fun r2 =>
             match r2 with
             | d :: r3 => if d == q then some r3 else none
             | [] => none
         else none
       | [] => none)
    | none => matchLitCI fname cs
  step1.bind fun r =>
    match r.dropWhile isJsWs with
    | ':' :: r2 =>
      (match r2.dropWhile isJsWs with
       | c :: r3 =>
         if c == valQuote then
           (match r3.dropWhile (fun d => d != valQuote) with
            | _ :: _ => some (r3.takeWhile (fun d => d != valQuote))
            | [] => none)
         else none
       | [] => none)
    | _ => none

/-- Pattern 4 at one position: `**field**`, an optional colon (with
backtracking), then the `\s*` capture excluding newlines and stars. -/
def starPatternAt (fname : List Char) (cs : List Char) : Option (List Char) :=
  match matchLitCI ('*' :: '*' :: (fname ++ ['*', '*'])) cs with
  | some r =>
    let excluded := fun c => c == '\n' || c == '*'
    (match r with
     | ':' :: r2 =>
       (match wsStarCapture excluded r2 with
        | some cap => some cap
        | none => wsStarCapture excluded r)
     | _ => wsStarCapture excluded r)
  | none => none

/-- Pattern 5 at one position: the bare field name, an optional colon
(with backtracking), then the `\s*` capture excluding newlines. -/
def bareColonPatternAt (fname : List Char) (cs : List Char) : Option (List Char) :=
  match matchLitCI fname cs with
  | some r =>
    let excluded := fun c => c == '\n'
    (match r with
     | ':' :: r2 =>
       (match wsStarCapture excluded r2 with
        | some cap => some cap
        | none => wsStarCapture excluded r)
     | _ => wsStarCapture excluded r)
  | none => none

/-- Leftmost regex match: the position matcher tried at each successive
start position. -/
def scanLeftmost (patAt : List Char → Option (List Char)) : List Char → Option (List Char)
  | [] => patAt []
  | cs@(_ :: rest) =>
    match patAt cs with
    | some cap => some cap
    | none => scanLeftmost patAt rest

/-- The apostrophe character (quote of pattern 2). -/
def apostCh : Char := Char.ofNat 39

/-- `if (match && match[1]) return match[1].trim()`: a match whose
capture is empty is falsy and falls through to the next pattern. -/
def tryCapture (res : Option (List Char)) : Option (List Char) :=
  match res with
  | some cap => if cap.isEmpty then none else some (trimJs cap)
  | none => none

/-- `extractField` of the source: five patterns in order, first truthy
capture wins, trimmed. -/
def extractField (content fname : List Char) : Option (List Char) :=
  (tryCapture (scanLeftmost (fieldPatternAt (some '"') '"' fname) content)).orElse fun _ =>
  (tryCapture (scanLeftmost (fieldPatternAt (some apostCh) apostCh fname) content)).orElse fun _ =>
  (tryCapture (scanLeftmost (fieldPatternAt none '"' fname) content)).orElse fun _ =>
  (tryCapture (scanLeftmost (starPatternAt fname) content)).orElse fun _ =>
  tryCapture (scanLeftmost (bareColonPatternAt fname) content)

/-- Truthiness of an extraction result (`null` or `""` are falsy). -/
def strOptTruthy (o : Option (List Char)) : Bool :=
  match o with
  | some s => !s.isEmpty
  | none => false

/-- A recovered field, or the given template when absent or empty. -/
def strFieldOr (o : Option (List Char)) (d : String) : Json :=
  match o with
  | some s => if s.isEmpty then Json.str d else Json.str (String.mk s)
  | none => Json.str d

/-- Tier-3 record of `generateInitialPrompt`: regex-recovered fields,
the rest from templates derived from the raw prompt. -/
def extractionRecord (content raw : List Char) : Json :=
  .obj [("context", strFieldOr (extractField content "context".data)
          ("Context based on: " ++ String.mk (raw.take 200) ++ "...")),
        ("role", strFieldOr (extractField content "role".data)
          "Expert assistant specialized in the given domain"),
        ("task", strFieldOr (extractField content "task".data)
          "Complete the task as described in the user\x27s prompt"),
        ("constraints", strFieldOr (extractField content "constraints".data)
          "Ensure accuracy, clarity, and adherence to best practices"),
        ("output", strFieldOr (extractField content "output".data)
          "Deliver a comprehensive and well-structured response")]

/-- The unconditional fallback record of `generateInitialPrompt`. -/
def ultimateRecord (raw : List Char) : Json :=
  .obj [("context", .str ("The user wants to: " ++ String.mk (raw.take 500) ++
          (if 500 < raw.length then "..." else ""))),
        ("role", .str "Expert assistant with deep knowledge in the relevant domain"),
        ("task", .str "1. Understand the user\x27s requirements\n2. Provide a comprehensive solution\n3. Ensure clarity and completeness"),
        ("constraints", .str "- Be accurate and thorough\n- Follow best practices\n- Provide clear explanations"),
        ("output", .str "A well-structured response that fully addresses the user\x27s needs")]

/-- The parse pipeline of `generateInitialPrompt` after the backend
call: strict parse, then brace extraction, then per-field regex
extraction (only context/role/task decide whether it fires), then the
unconditional fallback — it always yields a prompt. -/
def initialParseContent (content raw : List Char) : Json × String :=
  match parseJsonText content with
  | some v => (v, "Initial prompt generation.")
  | none =>
    match tier2Full "Initial prompt generation."
        "Initial prompt generation with field validation." content with
    | some r => r
    | none =>
      if strOptTruthy (extractField content "context".data) ||
         strOptTruthy (extractField content "role".data) ||
         strOptTruthy (extractField content "task".data) then
        (extractionRecord content raw,
         "Initial prompt generation with field extraction fallback.")
      else
        (ultimateRecord raw, "Initial prompt generation with automatic structuring.")

/-- The parse pipeline of `refinePrompt`: strict parse, then brace
extraction; `null` when both fail — there is no per-field tier here. -/
def refineParseContent (iterationNum : Nat) (content : List Char) : Option (Json × String) :=
  match parseJsonText content with
  | some v =>
    some (v, "Refined prompt based on PE2 principles (Iteration " ++
      toString iterationNum ++ ").")
  | none =>
    tier2Full "Refined prompt generation." "Refined prompt generation with field validation."
      content

/-- A strictly valid five-field record text whose context value contains
a comma directly before a closing brace. -/
def c7text : List Char :=
  "\x7b\"context\":\",\x7d\",\"role\":\"r\",\"task\":\"t\",\"constraints\":\"c\",\"output\":\"o\"\x7d".data

/-- The tier-1 (strict) record of `c7text`. -/
def c7value : Json :=
  .obj [("context", .str ",\x7d"), ("role", .str "r"), ("task", .str "t"),
        ("constraints", .str "c"), ("output", .str "o")]

/-- The record tier 2 produces from `c7text`: the trailing-comma strip
rewrites the comma-brace sequence inside the context string value. -/
def c7valueStripped : Json :=
  .obj [("context", .str "\x7d"), ("role", .str "r"), ("task", .str "t"),
        ("constraints", .str "c"), ("output", .str "o")]

def isNumExtChar (c : Char) : Bool :=
  c.isDigit || c == '.' || c == 'e' || c == 'E'

def extGuard (p : Char → Bool) : List Char → Prop
  | [] => True
  | c :: _ => p c = false

def numGuard : Json → List Char → Prop
  | Json.num _, tl => extGuard isNumExtChar tl
  | _, _ => True

def ValueSpecAt (fuel : Nat) : Prop :=
  ∀ cs v r, parseValue fuel cs = some (v, r) →
    ∃ pre, cs = pre ++ r ∧ pre ≠ [] ∧
      (∀ ms, v = Json.obj ms → ∃ mid, pre = '\x7b' :: (mid ++ ['\x7d'])) ∧
      ∀ g tl, 2 * pre.length ≤ g → numGuard v tl →
        parseValue g (pre ++ tl) = some (v, tl)

def MembersSpecAt (fuel : Nat) : Prop :=
  ∀ cs ms r, parseMembersBody fuel cs = some (ms, r) →
    ∃ pre, cs = pre ++ r ∧ pre ≠ [] ∧ (∃ mid, pre = mid ++ ['\x7d']) ∧
      ∀ g tl, 2 * pre.length ≤ g → parseMembersBody g (pre ++ tl) = some (ms, tl)

def ElemsSpecAt (fuel : Nat) : Prop :=
  ∀ cs es r, parseElemsBody fuel cs = some (es, r) →
    ∃ pre, cs = pre ++ r ∧ pre ≠ [] ∧
      ∀ g tl, 2 * pre.length ≤ g → parseElemsBody g (pre ++ tl) = some (es, tl)

lemma some_pair_inj {A B : Type _} {a c : A} {b d : B}
    (h : some (a, b) = some (c, d)) : a = c ∧ b = d := by
  injection h with h
  exact ⟨congrArg Prod.fst h, congrArg Prod.snd h⟩

/-! ### Claim C2: the analyzer's band table -/

/-- Claim C2.  For every input text the Complexity Analyzer's score is a
deterministic natural number (the result type is `Nat`, so non-negativity
and determinism are by construction), and the difficulty tier and
iteration count are determined solely by that score via the fixed band
table: 0–4 → NOVICE/1, 5–8 → INTERMEDIATE/2, 9–12 → ADVANCED/3,
13–16 → EXPERT/4, 17+ → MASTER/5. -/
theorem analyzer_band_table (text : String) :
    ((analyzePromptComplexity text).score ≤ 4 ∧
      (analyzePromptComplexity text).difficulty = .NOVICE ∧
      (analyzePromptComplexity text).iterations = 1) ∨
    (5 ≤ (analyzePromptComplexity text).score ∧ (analyzePromptComplexity text).score ≤ 8 ∧
      (analyzePromptComplexity text).difficulty = .INTERMEDIATE ∧
      (analyzePromptComplexity text).iterations = 2) ∨
    (9 ≤ (analyzePromptComplexity text).score ∧ (analyzePromptComplexity text).score ≤ 12 ∧
      (analyzePromptComplexity text).difficulty = .ADVANCED ∧
      (analyzePromptComplexity text).iterations = 3) ∨
    (13 ≤ (analyzePromptComplexity text).score ∧ (analyzePromptComplexity text).score ≤ 16 ∧
      (analyzePromptComplexity text).difficulty = .EXPERT ∧
      (analyzePromptComplexity text).iterations = 4) ∨
    (17 ≤ (analyzePromptComplexity text).score ∧
      (analyzePromptComplexity text).difficulty = .MASTER ∧
      (analyzePromptComplexity text).iterations = 5) := by
  have h : ∀ s : Nat,
      (s ≤ 4 ∧ bandDifficulty s = .NOVICE ∧ bandIterations s = 1) ∨
      (5 ≤ s ∧ s ≤ 8 ∧ bandDifficulty s = .INTERMEDIATE ∧ bandIterations s = 2) ∨
      (9 ≤ s ∧ s ≤ 12 ∧ bandDifficulty s = .ADVANCED ∧ bandIterations s = 3) ∨
      (13 ≤ s ∧ s ≤ 16 ∧ bandDifficulty s = .EXPERT ∧ bandIterations s = 4) ∨
      (17 ≤ s ∧ bandDifficulty s = .MASTER ∧ bandIterations s = 5) := by
    intro s
    unfold bandDifficulty bandIterations
    split_ifs with h1 h2 h3 h4
    · exact Or.inl ⟨h1, rfl, rfl⟩
    · exact Or.inr (Or.inl ⟨by omega, h2, rfl, rfl⟩)
    · exact Or.inr (Or.inr (Or.inl ⟨by omega, h3, rfl, rfl⟩))
    · exact Or.inr (Or.inr (Or.inr (Or.inl ⟨by omega, h4, rfl, rfl⟩)))
    · exact Or.inr (Or.inr (Or.inr (Or.inr ⟨by omega, rfl, rfl⟩)))
  simpa [analyzePromptComplexity] using h (complexityScore text)

/-! ### Claim C5: the spec's worked example

The example input is built as 42 interesting characters followed by a
periodic padding of 489 repetitions of `" o"`, giving 500 words in all.
The periodicity lets every scan of the 1020-character text be reduced to
a scan of a short prefix. -/

lemma repChars_add (a b : Nat) : repChars (a + b) = repChars a ++ repChars b := by
  induction a with
  | zero => simp [repChars]
  | succ k ih =>
    have : k + 1 + b = (k + b) + 1 := by omega
    rw [this, repChars, ih, repChars, List.cons_append, List.cons_append]

lemma repChars_succ_right (n : Nat) : repChars (n + 1) = repChars n ++ repChars 1 :=
  repChars_add n 1

lemma repChars_length (n : Nat) : (repChars n).length = 2 * n := by
  induction n with
  | zero => rfl
  | succ k ih => simp [repChars, ih]; omega

lemma repChars_mem {n : Nat} {c : Char} (h : c ∈ repChars n) : c = ' ' ∨ c = 'o' := by
  induction n with
  | zero => simp [repChars] at h
  | succ k ih =>
    simp only [repChars, List.mem_cons] at h
    rcases h with h | h | h
    · exact Or.inl h
    · exact Or.inr h
    · exact ih h

lemma c5chars_eq_pad8 : c5chars = coreChars ++ repChars (8 + 481) := rfl

/-! Substring search over the padded text reduces to search over a short
prefix, because the pad is 2-periodic. -/

lemma isPrefixCh_iff {p l : List Char} : isPrefixCh p l = true ↔ p <+: l := by
  induction p generalizing l with
  | nil => simp [isPrefixCh]
  | cons a ps ih =>
    cases l with
    | nil => simp [isPrefixCh]
    | cons b hs =>
      simp only [isPrefixCh, Bool.and_eq_true, beq_iff_eq, ih, List.cons_prefix_cons]

lemma containsSub_iff {l p : List Char} :
    containsSub l p = true ↔ ∃ i, p <+: l.drop i := by
  induction l with
  | nil =>
    simp only [containsSub, List.isEmpty_iff, List.drop_nil]
    constructor
    · rintro rfl; exact ⟨0, List.nil_prefix⟩
    · rintro ⟨i, h⟩; exact List.prefix_nil.mp h
  | cons c rest ih =>
    simp only [containsSub, Bool.or_eq_true, isPrefixCh_iff, ih]
    constructor
    · rintro (h | ⟨i, h⟩)
      · exact ⟨0, by simpa using h⟩
      · exact ⟨i + 1, by simpa using h⟩
    · rintro ⟨i, h⟩
      cases i with
      | zero => exact Or.inl (by simpa using h)
      | succ j => exact Or.inr ⟨j, by simpa using h⟩

lemma containsSub_pad_step (A p : List Char) (m : Nat) (h : p.length + 2 ≤ 2 * m) :
    containsSub (A ++ repChars (m + 1)) p = containsSub (A ++ repChars m) p := by
  have hX : A ++ repChars (m + 1) = (A ++ repChars m) ++ repChars 1 := by
    rw [repChars_succ_right, List.append_assoc]
  have hY : A ++ repChars (m + 1) = (A ++ repChars 1) ++ repChars m := by
    have : repChars (m + 1) = repChars 1 ++ repChars m := by
      have := repChars_add 1 m
      simpa [Nat.add_comm] using this
    rw [this, List.append_assoc]
  have hLsmall : (A ++ repChars m).length = A.length + 2 * m := by
    rw [List.length_append, repChars_length]
  have hLbig : (A ++ repChars (m + 1)).length = A.length + 2 * (m + 1) := by
    rw [List.length_append, repChars_length]
  have hA1 : (A ++ repChars 1).length = A.length + 2 := by
    rw [List.length_append, repChars_length]
  rw [Bool.eq_iff_iff, containsSub_iff, containsSub_iff]
  constructor
  · rintro ⟨i, hp⟩
    by_cases hc : i + p.length ≤ (A ++ repChars m).length
    · refine ⟨i, ?_⟩
      rw [hX, List.drop_append_eq_append_drop] at hp
      rw [List.prefix_iff_eq_take] at hp ⊢
      rw [List.take_append_eq_append_take] at hp
      have hlen : p.length ≤ ((A ++ repChars m).drop i).length := by
        rw [List.length_drop]; omega
      rw [Nat.sub_eq_zero_of_le hlen] at hp
      simpa using hp
    · -- the occurrence overlaps the freshly appended block: shift it left by 2
      have hiA : A.length + 2 ≤ i := by
        have hlenp : p.length ≤ (A ++ repChars (m + 1)).length - i := by
          have := hp.length_le
          rwa [List.length_drop] at this
        rw [hLbig] at hlenp
        rw [hLsmall] at hc
        omega
      refine ⟨i - 2, ?_⟩
      have e1 : (A ++ repChars (m + 1)).drop i = (repChars m).drop (i - (A.length + 2)) := by
        rw [hY, List.drop_append_eq_append_drop,
            List.drop_eq_nil_of_le (by rw [hA1]; omega), hA1]
        simp
      have e2 : (A ++ repChars m).drop (i - 2) = (repChars m).drop (i - 2 - A.length) := by
        rw [List.drop_append_eq_append_drop,
            List.drop_eq_nil_of_le (by omega)]
        simp
      rw [e2, show i - 2 - A.length = i - (A.length + 2) by omega, ← e1]
      exact hp
  · rintro ⟨i, hp⟩
    refine ⟨i, ?_⟩
    rw [hX, List.drop_append_eq_append_drop]
    exact hp.trans (List.prefix_append _ _)

lemma containsSub_pad (A p : List Char) (m n : Nat) (h : p.length + 2 ≤ 2 * m) :
    containsSub (A ++ repChars (m + n)) p = containsSub (A ++ repChars m) p := by
  induction n with
  | zero => rfl
  | succ k ih =>
    rw [show m + (k + 1) = (m + k) + 1 from rfl,
        containsSub_pad_step A p (m + k) (by omega), ih]

lemma countHits_c5 (kws : List String) (h : ∀ kw ∈ kws, kw.length + 2 ≤ 16) :
    countHits c5chars kws = countHits (coreChars ++ repChars 8) kws := by
  unfold countHits
  congr 1
  refine List.filter_congr ?_
  intro kw hkw
  have hl : kw.data.length + 2 ≤ 2 * 8 := h kw hkw
  rw [c5chars_eq_pad8, containsSub_pad coreChars kw.data 8 481 hl]

/-! Lowercasing fixes the example text. -/

lemma toLowerJs_append (a b : List Char) :
    toLowerJs (a ++ b) = toLowerJs a ++ toLowerJs b := List.map_append _ a b

lemma toLowerJs_repChars (n : Nat) : toLowerJs (repChars n) = repChars n := by
  induction n with
  | zero => rfl
  | succ k ih =>
    show (' ' :: 'o' :: repChars k).map Char.toLower = ' ' :: 'o' :: repChars k
    rw [List.map_cons, List.map_cons]
    rw [show Char.toLower ' ' = ' ' from by decide, show Char.toLower 'o' = 'o' from by decide]
    exact congrArg (fun l => ' ' :: 'o' :: l) ih

set_option maxRecDepth 4000 in
lemma toLowerJs_core : toLowerJs coreChars = coreChars := by decide

lemma toLowerJs_c5 : toLowerJs c5chars = c5chars := by
  unfold c5chars
  rw [toLowerJs_append, toLowerJs_core, toLowerJs_repChars]

/-! Word count of the example text. -/

lemma wsRunsAux_append (xs ys : List Char) (b : Bool) :
    wsRunsAux (xs ++ ys) b = wsRunsAux xs b + wsRunsAux ys (endWsState xs b) := by
  induction xs generalizing b with
  | nil => simp [wsRunsAux, endWsState]
  | cons c rest ih =>
    show wsRunsAux (c :: (rest ++ ys)) b = _
    by_cases hc : isJsWs c
    · simp only [wsRunsAux, endWsState, hc, if_true, ih]
      cases b <;> simp <;> omega
    · simp only [wsRunsAux, endWsState, hc, if_false, ih]
      simp [hc]

lemma wsRunsAux_repChars (n : Nat) : wsRunsAux (repChars n) false = n := by
  induction n with
  | zero => rfl
  | succ k ih =>
    show wsRunsAux (' ' :: 'o' :: repChars k) false = k + 1
    rw [show wsRunsAux (' ' :: 'o' :: repChars k) false
          = 1 + wsRunsAux (repChars k) false from by
        simp [wsRunsAux, show isJsWs ' ' = true from by decide,
          show isJsWs 'o' = false from by decide], ih]
    omega

set_option maxRecDepth 4000 in
lemma wsRunsAux_core : wsRunsAux coreChars false = 10 := by decide

set_option maxRecDepth 4000 in
lemma endWsState_core : endWsState coreChars false = false := by decide

lemma c5_words : jsSplitWsCount c5chars = 500 := by
  unfold jsSplitWsCount c5chars
  rw [wsRunsAux_append, wsRunsAux_core, endWsState_core, wsRunsAux_repChars]

/-! Structural scans over the example text. -/

lemma anyTails_iff (P : List Char → Bool) (l : List Char) :
    anyTails P l = true ↔ ∃ i, i < l.length ∧ P (l.drop i) = true := by
  induction l with
  | nil => simp [anyTails]
  | cons c rest ih =>
    simp only [anyTails, Bool.or_eq_true, ih]
    constructor
    · rintro (h | ⟨i, hi, h⟩)
      · exact ⟨0, by simp, by simpa using h⟩
      · exact ⟨i + 1, by simp; omega, by simpa using h⟩
    · rintro ⟨i, hi, h⟩
      cases i with
      | zero => exact Or.inl (by simpa using h)
      | succ j =>
        exact Or.inr ⟨j, by simpa using Nat.lt_of_succ_lt_succ hi, by simpa using h⟩

lemma coreChars_length : coreChars.length = 41 := by decide

lemma c5_numbered : testNumberedList c5chars = true := by
  unfold testNumberedList
  rw [anyTails_iff]
  refine ⟨38, ?_, ?_⟩
  · rw [c5chars, List.length_append, coreChars_length, repChars_length]; omega
  · have hdrop : c5chars.drop 38 = ['\n', '1', '.'] ++ repChars 489 := by
      rw [c5chars, List.drop_append_eq_append_drop, coreChars_length,
        show (38 : Nat) - 41 = 0 from rfl, List.drop_zero,
        show coreChars.drop 38 = ['\n', '1', '.'] from by decide]
    rw [hdrop]; rfl

set_option maxRecDepth 4000 in
lemma bulletAt_core_pad : ∀ j, j < 42 → bulletAt (coreChars.drop j ++ repChars 489) = false := by
  decide

lemma bulletAt_no_newline {s : List Char} (h : bulletAt s = true) : '\n' ∈ s := by
  cases s with
  | nil => simp [bulletAt] at h
  | cons c rest =>
    simp only [bulletAt, Bool.and_eq_true, beq_iff_eq] at h
    rw [h.1]
    exact List.mem_cons_self _ _

lemma c5_bullet : testBullet c5chars = false := by
  unfold testBullet
  rw [Bool.eq_false_iff]
  intro hcon
  rw [anyTails_iff] at hcon
  obtain ⟨i, hi, hP⟩ := hcon
  by_cases hsmall : i < 42
  · have := bulletAt_core_pad i hsmall
    rw [c5chars, List.drop_append_eq_append_drop, coreChars_length] at hP
    rw [show i - 41 = 0 from by omega, List.drop_zero] at hP
    rw [this] at hP
    exact Bool.false_ne_true hP
  · have hmem : '\n' ∈ c5chars.drop i := bulletAt_no_newline hP
    rw [c5chars, List.drop_append_eq_append_drop] at hmem
    have hnil : List.drop i coreChars = [] :=
      List.drop_eq_nil_of_le (by rw [coreChars_length]; omega)
    rw [hnil, List.nil_append] at hmem
    have hmem2 : '\n' ∈ repChars 489 := List.mem_of_mem_drop hmem
    rcases repChars_mem hmem2 with h | h <;> exact absurd h (by decide)

set_option maxRecDepth 4000 in
lemma c5_fence : testCodeFence c5chars = false := by
  unfold testCodeFence
  rw [c5chars_eq_pad8,
    containsSub_pad coreChars [backtickCh, backtickCh, backtickCh] 8 481 (by decide)]
  decide

lemma repChars_any_false (p : Char → Bool) (hsp : p ' ' = false) (hop : p 'o' = false)
    (n : Nat) : (repChars n).any p = false := by
  induction n with
  | zero => rfl
  | succ k ih =>
    show (' ' :: 'o' :: repChars k).any p = false
    simp [List.any_cons, hsp, hop, ih]

set_option maxRecDepth 4000 in
lemma c5_hash : testHash c5chars = false := by
  unfold testHash c5chars
  rw [List.any_append, repChars_any_false _ (by decide) (by decide)]
  decide

lemma repChars_countP_zero (p : Char → Bool) (hsp : p ' ' = false) (hop : p 'o' = false)
    (n : Nat) : (repChars n).countP p = 0 := by
  induction n with
  | zero => rfl
  | succ k ih =>
    show (' ' :: 'o' :: repChars k).countP p = 0
    simp [List.countP_cons, hsp, hop, ih]

set_option maxRecDepth 4000 in
lemma c5_special : specialCount c5chars = 0 := by
  unfold specialCount c5chars
  rw [List.countP_append, repChars_countP_zero _ (by decide) (by decide)]
  decide

set_option maxRecDepth 8000 in
lemma c5_tech : countHits (toLowerJs c5chars) techKeywords = 5 := by
  rw [toLowerJs_c5, countHits_c5 techKeywords (by decide)]
  decide

set_option maxRecDepth 8000 in
lemma c5_domain : countHits (toLowerJs c5chars) domainKeywords = 0 := by
  rw [toLowerJs_c5, countHits_c5 domainKeywords (by decide)]
  decide

set_option maxRecDepth 8000 in
lemma c5_logic : countHits (toLowerJs c5chars) logicWords = 2 := by
  rw [toLowerJs_c5, countHits_c5 logicWords (by decide)]
  decide

lemma complexityScore_c5 : complexityScore c5input = 11 := by
  show complexityScore (String.mk c5chars) = 11
  unfold complexityScore
  show (let cs := c5chars; _) = 11
  simp only [String.data]
  rw [c5_tech, c5_domain, c5_logic, c5_words, c5_numbered, c5_bullet, c5_fence, c5_hash,
    c5_special]
  rfl

/-- Counterexample to claim C5.  `c5input` is a 500-word input containing
5 technical keywords, a numbered list, and 2 conditional connective
words, yet the Complexity Analyzer does not place it in the two highest
bands: its difficulty is ADVANCED (not EXPERT or MASTER) and its
iteration count is 3 (not 4 or 5). -/
theorem c5_example_not_top_two_bands :
    jsSplitWsCount c5input.data = 500 ∧
    countHits (toLowerJs c5input.data) techKeywords = 5 ∧
    testNumberedList c5input.data = true ∧
    countHits (toLowerJs c5input.data) logicWords = 2 ∧
    (analyzePromptComplexity c5input).difficulty ≠ .EXPERT ∧
    (analyzePromptComplexity c5input).difficulty ≠ .MASTER ∧
    (analyzePromptComplexity c5input).iterations ≠ 4 ∧
    (analyzePromptComplexity c5input).iterations ≠ 5 := by
  have hres : analyzePromptComplexity c5input =
      { difficulty := .ADVANCED, iterations := 3, score := 11 } := by
    unfold analyzePromptComplexity
    rw [complexityScore_c5]
    rfl
  refine ⟨c5_words, c5_tech, c5_numbered, c5_logic, ?_, ?_, ?_, ?_⟩ <;>
    rw [hres] <;> decide

/-- Claim C5 (amended): a 500-word input containing 5 technical keywords,
a numbered list, and 2 conditional connective words can score as low as
11 — in the middle band (ADVANCED, 3 iterations), not the two highest
bands — because those features contribute at most 4 + 4 + 1 + 2 = 11
points. -/
theorem c5_example_scores_middle_band :
    jsSplitWsCount c5input.data = 500 ∧
    countHits (toLowerJs c5input.data) techKeywords = 5 ∧
    testNumberedList c5input.data = true ∧
    countHits (toLowerJs c5input.data) logicWords = 2 ∧
    analyzePromptComplexity c5input =
      { difficulty := .ADVANCED, iterations := 3, score := 11 } := by
  refine ⟨c5_words, c5_tech, c5_numbered, c5_logic, ?_⟩
  unfold analyzePromptComplexity
  rw [complexityScore_c5]
  rfl

/-! ### Claims C1 and C10: the refinement loop -/

lemma refineLoop_firstFail {α : Type} (refine : Nat → Option (α × String)) :
    ∀ (k remaining j : Nat) (w : α) (h : List HistEntry),
      (∀ m, m < k → (refine (j + m)).isSome) →
      refine (j + k) = none →
      k < remaining →
      ∃ w' extra,
        refineLoop refine remaining j w h = (w', h ++ extra) ∧
        extra.length = k ∧
        (k = 0 → w' = w) ∧
        (∀ p e, 1 ≤ k → refine (j + (k - 1)) = some (p, e) → w' = p) := by
  intro k
  induction k with
  | zero =>
    intro remaining j w h _ hfail hlt
    obtain ⟨r, rfl⟩ : ∃ r, remaining = r + 1 :=
      ⟨remaining - 1, by omega⟩
    refine ⟨w, [], ?_, rfl, fun _ => rfl, fun p e h1 _ => absurd h1 (by omega)⟩
    show refineLoop refine (r + 1) j w h = (w, h ++ [])
    rw [refineLoop]
    rw [show j + 0 = j from rfl] at hfail
    rw [hfail, List.append_nil]
  | succ k ih =>
    intro remaining j w h hok hfail hlt
    obtain ⟨r, rfl⟩ : ∃ r, remaining = r + 1 := ⟨remaining - 1, by omega⟩
    have h0 : (refine j).isSome := by simpa using hok 0 (by omega)
    obtain ⟨⟨p, e⟩, hpe⟩ := Option.isSome_iff_exists.mp h0
    have hstep : refineLoop refine (r + 1) j w h =
        refineLoop refine r (j + 1) p (h ++ [⟨j + 2, e⟩]) := by
      rw [refineLoop, hpe]
    obtain ⟨w', extra, heq, hlen, hzero, hlast⟩ :=
      ih r (j + 1) p (h ++ [⟨j + 2, e⟩])
        (fun m hm => by
          have := hok (m + 1) (by omega)
          simpa [show j + (m + 1) = j + 1 + m by omega] using this)
        (by simpa [show j + 1 + k = j + (k + 1) by omega] using hfail)
        (by omega)
    refine ⟨w', ⟨j + 2, e⟩ :: extra, ?_, by simp [hlen], by omega, ?_⟩
    · rw [hstep, heq, List.append_assoc]
      rfl
    · intro p' e' _ hsome
      cases k with
      | zero =>
        have : p' = p := by
          rw [show j + (0 + 1 - 1) = j from rfl] at hsome
          rw [hpe] at hsome
          exact (some_pair_inj hsome).1.symm
        rw [this]
        exact hzero rfl
      | succ k' =>
        refine hlast p' e' (by omega) ?_
        rw [show j + 1 + (k' + 1 - 1) = j + (k' + 1 + 1 - 1) by omega]
        exact hsome

lemma refineLoop_congr {α : Type} (f g : Nat → Option (α × String)) :
    ∀ (remaining j k : Nat) (w : α) (h : List HistEntry),
      (∀ m, m ≤ k → g (j + m) = f (j + m)) →
      f (j + k) = none →
      refineLoop g remaining j w h = refineLoop f remaining j w h := by
  intro remaining
  induction remaining with
  | zero => intro j k w h _ _; rfl
  | succ r ih =>
    intro j k w h hagree hfail
    have h0 : g j = f j := by simpa using hagree 0 (by omega)
    rw [refineLoop, refineLoop, h0]
    cases hfj : f j with
    | none => rfl
    | some pe =>
      obtain ⟨p, e⟩ := pe
      cases k with
      | zero => rw [show j + 0 = j from rfl] at hfail; rw [hfail] at hfj; cases hfj
      | succ k' =>
        exact ih (j + 1) k' p (h ++ [⟨j + 2, e⟩])
          (fun m hm => by
            simpa [show j + 1 + m = j + (m + 1) by omega] using hagree (m + 1) (by omega))
          (by simpa [show j + 1 + k' = j + (k' + 1) by omega] using hfail)

/-- Claim C1.  If the initial generation parses (outcome `some`), and the
`i`-th refinement round (1-based) is the first whose call errors or whose
response is unparsable (oracle outcome `none`), with `i` within the
configured budget `n`, then the orchestrator completes in `Done`: the run
returns a result whose history has exactly `1 + (i - 1)` entries, the
final prompt is the last successfully parsed one (the initial prompt when
`i = 1`, round `i - 1`'s prompt otherwise), and no later round is ever
consulted — any oracle agreeing on rounds up to `i` produces the
identical run, so round `i` is not retried and rounds after `i` are
never attempted. -/
theorem orchestrator_soft_failure_stops_early {α : Type} (p0 : α) (e0 : String)
    (refine : Nat → Option (α × String)) (n i : Nat)
    (h1 : 1 ≤ i) (h2 : i ≤ n)
    (hfail : refine (i - 1) = none)
    (hok : ∀ m, m < i - 1 → (refine m).isSome) :
    ∃ w h, processPromptCore (some (p0, e0)) refine n = some (w, h) ∧
      h.length = 1 + (i - 1) ∧
      (i = 1 → w = p0) ∧
      (∀ p e, 2 ≤ i → refine (i - 2) = some (p, e) → w = p) ∧
      (∀ refine' : Nat → Option (α × String),
        (∀ m, m < i → refine' m = refine m) →
        processPromptCore (some (p0, e0)) refine' n =
          processPromptCore (some (p0, e0)) refine n) := by
  obtain ⟨w', extra, heq, hlen, hzero, hlast⟩ :=
    refineLoop_firstFail refine (i - 1) n 0 p0 [⟨1, e0⟩]
      (fun m hm => by simpa using hok m hm)
      (by simpa using hfail)
      (by omega)
  refine ⟨w', ⟨1, e0⟩ :: extra, ?_, by simp [hlen]; omega, ?_, ?_, ?_⟩
  · show some (refineLoop refine n 0 p0 [⟨1, e0⟩]) = _
    rw [heq]
    rfl
  · intro hi1
    exact hzero (by omega)
  · intro p e hi2 hsome
    refine hlast p e (by omega) ?_
    simpa [show 0 + (i - 1 - 1) = i - 2 by omega] using hsome
  · intro refine' hagree
    show some (refineLoop refine' n 0 p0 [⟨1, e0⟩]) = some (refineLoop refine n 0 p0 [⟨1, e0⟩])
    rw [refineLoop_congr refine refine' n 0 (i - 1) p0 [⟨1, e0⟩]
      (fun m hm => by simpa using hagree m (by omega)) (by simpa using hfail)]

/-- Witness for claim C1, the spec's end-to-end scenario: 3 configured
refinement rounds, round 1 parses, round 2 is unparsable.  The run
completes with a history of exactly 2 entries, the final prompt is round
1's, and an oracle differing only from round 3 onwards gives the
identical run. -/
theorem orchestrator_soft_failure_stops_early_witness :
    ∃ w h, processPromptCore (some (0, "init"))
        (fun m => if m = 0 then some (7, "round one") else none) 3 = some (w, h) ∧
      h.length = 1 + (2 - 1) ∧
      (2 = 1 → w = 0) ∧
      (∀ p e, 2 ≤ 2 →
        (if 2 - 2 = 0 then some (7, "round one") else none) = some (p, e) → w = p) ∧
      (∀ refine' : Nat → Option (Nat × String),
        (∀ m, m < 2 → refine' m = (if m = 0 then some (7, "round one") else none)) →
        processPromptCore (some (0, "init")) refine' 3 =
          processPromptCore (some (0, "init"))
            (fun m => if m = 0 then some (7, "round one") else none) 3) :=
  orchestrator_soft_failure_stops_early 0 "init"
    (fun m => if m = 0 then some (7, "round one") else none) 3 2
    (by decide) (by decide) (by decide)
    (fun m hm => by interval_cases m <;> decide)

lemma refineLoop_map_iterations {α : Type} (refine : Nat → Option (α × String)) :
    ∀ (remaining j : Nat) (w : α) (h : List HistEntry),
      h.map HistEntry.iteration = List.range' 1 h.length →
      h.length = j + 1 →
      (refineLoop refine remaining j w h).2.map HistEntry.iteration =
        List.range' 1 (refineLoop refine remaining j w h).2.length := by
  intro remaining
  induction remaining with
  | zero => intro j w h hinv _; exact hinv
  | succ r ih =>
    intro j w h hinv hlen
    rw [refineLoop]
    cases hrj : refine j with
    | none => exact hinv
    | some pe =>
      obtain ⟨p, e⟩ := pe
      refine ih (j + 1) p (h ++ [⟨j + 2, e⟩]) ?_ (by simp [hlen])
      rw [List.map_append, hinv,
        show (h ++ [(⟨j + 2, e⟩ : HistEntry)]).length = h.length + 1 from by simp,
        List.range'_concat]
      simp only [List.map_cons, List.map_nil]
      rw [hlen]
      have h2 : (1 : Nat) + 1 * (j + 1) = j + 2 := by omega
      rw [h2]

/-- Claim C10.  In every completed orchestration run the history's
iteration numbers are exactly `1, 2, …, length` in order: the initial
entry is numbered 1 and the `k`-th successful refinement entry `k + 1`,
so each entry's stored number equals its 1-based position. -/
theorem orchestrator_history_numbering {α : Type} (init : Option (α × String))
    (refine : Nat → Option (α × String)) (n : Nat) (w : α) (h : List HistEntry)
    (hrun : processPromptCore init refine n = some (w, h)) :
    h.map HistEntry.iteration = List.range' 1 h.length := by
  cases init with
  | none => simp [processPromptCore] at hrun
  | some pe =>
    obtain ⟨p, e⟩ := pe
    have : refineLoop refine n 0 p [⟨1, e⟩] = (w, h) := by
      simpa [processPromptCore] using hrun
    have hmap := refineLoop_map_iterations refine n 0 p [⟨1, e⟩] rfl rfl
    rw [this] at hmap
    exact hmap

/-- Witness for claim C10: a run with one successful refinement then a
failure has history numbers `[1, 2]`. -/
theorem orchestrator_history_numbering_witness :
    processPromptCore (some (0, "a")) (fun m => if m = 0 then some (1, "b") else none) 3 =
      some (1, [⟨1, "a"⟩, ⟨2, "b"⟩]) ∧
    ([⟨1, "a"⟩, ⟨2, "b"⟩] : List HistEntry).map HistEntry.iteration =
      List.range' 1 ([⟨1, "a"⟩, ⟨2, "b"⟩] : List HistEntry).length :=
  ⟨by decide, orchestrator_history_numbering (some (0, "a"))
    (fun m => if m = 0 then some (1, "b") else none) 3 1 [⟨1, "a"⟩, ⟨2, "b"⟩] (by decide)⟩

/-! ### Claim C3: pre-call validation across the five adapters -/

lemma validateMessageList_isSome {msgs : List ChatMessage}
    (h : msgs.all (fun m => roleAllowed m.role && m.content != "") = false) :
    (validateMessageList msgs).isSome = true := by
  induction msgs with
  | nil => simp at h
  | cons m rest ih =>
    rw [validateMessageList]
    by_cases hrole : m.role == "" || !roleAllowed m.role
    · rw [if_pos hrole]; rfl
    · rw [if_neg hrole]
      by_cases hcontent : m.content == ""
      · rw [if_pos hcontent]; rfl
      · rw [if_neg hcontent]
        apply ih
        simp only [List.all_cons, Bool.and_eq_false_iff] at h
        rcases h with h | h
        · exfalso
          simp only [Bool.or_eq_true, Bool.not_eq_true'] at hrole
          push_neg at hrole
          simp only [Bool.and_eq_false_iff, bne, Bool.not_eq_false'] at h
          rcases h with h | h
          · rw [h] at hrole; exact absurd rfl hrole.2
          · exact absurd h hcontent
        · exact h

lemma validateRequest_isSome (provider : String) {req : CompletionRequest}
    (h : validRequestB req = false) :
    (validateRequest provider req).isSome = true := by
  unfold validRequestB at h
  unfold validateRequest
  by_cases hm : req.model == ""
  · rw [if_pos hm]; rfl
  · rw [if_neg hm]
    by_cases he : req.messages.isEmpty
    · rw [if_pos he]; rfl
    · rw [if_neg he]
      apply validateMessageList_isSome
      simp only [Bool.and_eq_false_iff, bne, Bool.not_eq_false', Bool.not_eq_true,
        Bool.not_eq_false] at h ⊢
      rcases h with (h | h) | h
      · exact absurd h hm
      · rw [h] at he; exact absurd rfl he
      · exact h

/-- Counterexample to claim C3: the local-HTTP (Ollama) adapter performs
no pre-call validation.  A request whose single message has the
disallowed role "tool" and empty content is invalid, yet `ollamaCreate`
still produces the outbound network call (an `ok` wire body) instead of
a validation error — so it is not true that every one of the five
adapters rejects such requests before calling the network. -/
theorem ollama_skips_validation :
    validRequestB invalidReq = false ∧
    ollamaCreate invalidReq =
      .ok { model := "m", messages := [{ role := "tool", content := "" }],
            stream := false, num_predict := 2048 } :=
  ⟨by decide, rfl⟩

/-- Claim C3 (amended): of the five provider adapters, the four remote
ones (OpenAI, OpenRouter, Anthropic, Google) reject every request that
fails the uniform validation — model missing/empty, empty message list,
a role outside {system, user, assistant}, or an empty content — with a
validation error before any network call is attempted, while the Ollama
adapter performs no pre-call validation and always proceeds to the
network call. -/
theorem adapters_validation (req : CompletionRequest) (h : validRequestB req = false) :
    (openaiCreate req).isOk = false ∧
    (openrouterCreate req).isOk = false ∧
    (anthropicCreate req).isOk = false ∧
    (googleCreate req).isOk = false ∧
    (ollamaCreate req).isOk = true := by
  refine ⟨?_, ?_, ?_, ?_, rfl⟩
  · unfold openaiCreate
    obtain ⟨e, he⟩ := Option.isSome_iff_exists.mp (validateRequest_isSome "OpenAI" h)
    rw [he]
    rfl
  · unfold openrouterCreate
    obtain ⟨e, he⟩ := Option.isSome_iff_exists.mp (validateRequest_isSome "OpenRouter" h)
    rw [he]
    rfl
  · unfold anthropicCreate
    obtain ⟨e, he⟩ := Option.isSome_iff_exists.mp (validateRequest_isSome "Anthropic" h)
    rw [he]
    rfl
  · unfold googleCreate
    obtain ⟨e, he⟩ := Option.isSome_iff_exists.mp (validateRequest_isSome "Google" h)
    rw [he]
    rfl

/-- Witness for claim C3 (amended), at the concrete invalid request with
role "tool" and empty content. -/
theorem adapters_validation_witness :
    validRequestB invalidReq = false ∧
    ((openaiCreate invalidReq).isOk = false ∧
     (openrouterCreate invalidReq).isOk = false ∧
     (anthropicCreate invalidReq).isOk = false ∧
     (googleCreate invalidReq).isOk = false ∧
     (ollamaCreate invalidReq).isOk = true) :=
  ⟨by decide, adapters_validation invalidReq (by decide)⟩

/-! ### Claim C9: clamping in the OpenAI-compatible adapters -/

/-- Claim C9: in both OpenAI-compatible adapters, a temperature above the
backend maximum of 2 is clamped to exactly 2 in the outbound body, and a
top_p below 0 is clamped to exactly 0. -/
theorem openai_compatible_clamping (req : CompletionRequest) (t p : Rat)
    (ht : req.temperature = some t) (h2 : 2 < t)
    (hp : req.top_p = some p) (h0 : p < 0) :
    (∀ w, openaiCreate req = .ok w → w.temperature = 2 ∧ w.top_p = 0) ∧
    (∀ w, openrouterCreate req = .ok w → w.temperature = 2 ∧ w.top_p = 0) := by
  have htemp : (req.temperature.map (fun x => max 0 (min 2 x))).getD 0.7 = 2 := by
    rw [ht]
    show max 0 (min 2 t) = 2
    rw [min_eq_left (le_of_lt h2)]
    norm_num
  have htop : (req.top_p.map (fun v => max 0 (min 1 v))).getD 1 = 0 := by
    rw [hp]
    show max 0 (min 1 p) = 0
    rw [min_eq_right (by linarith : p ≤ 1)]
    exact max_eq_left (le_of_lt h0)
  constructor
  · intro w hw
    unfold openaiCreate at hw
    cases hv : validateRequest "OpenAI" req with
    | some e => rw [hv] at hw; cases hw
    | none =>
      rw [hv] at hw
      cases hw
      exact ⟨htemp, htop⟩
  · intro w hw
    unfold openrouterCreate at hw
    cases hv : validateRequest "OpenRouter" req with
    | some e => rw [hv] at hw; cases hw
    | none =>
      rw [hv] at hw
      cases hw
      exact ⟨htemp, htop⟩

/-- Witness for claim C9 at temperature 5 and top_p −1. -/
theorem openai_compatible_clamping_witness :
    (∀ w, openaiCreate clampReq = .ok w → w.temperature = 2 ∧ w.top_p = 0) ∧
    (∀ w, openrouterCreate clampReq = .ok w → w.temperature = 2 ∧ w.top_p = 0) :=
  openai_compatible_clamping clampReq 5 (-1) rfl (by norm_num) rfl (by norm_num)

/-! ### Claim C8: the Anthropic adapter's reshaping -/

lemma validateMessageList_none {msgs : List ChatMessage}
    (h : validateMessageList msgs = none) :
    ∀ m ∈ msgs, roleAllowed m.role = true ∧ m.content ≠ "" := by
  induction msgs with
  | nil => intro m hm; simp at hm
  | cons a rest ih =>
    rw [validateMessageList] at h
    by_cases hrole : a.role == "" || !roleAllowed a.role
    · rw [if_pos hrole] at h; cases h
    · rw [if_neg hrole] at h
      by_cases hcontent : a.content == ""
      · rw [if_pos hcontent] at h; cases h
      · rw [if_neg hcontent] at h
        intro m hm
        rcases List.mem_cons.mp hm with rfl | hm
        · constructor
          · simp only [Bool.or_eq_true, Bool.not_eq_true'] at hrole
            push_neg at hrole
            have := hrole.2
            simpa using this
          · intro hc; rw [hc] at hcontent; exact hcontent rfl
        · exact ih h m hm

lemma joinWith_ne_empty {sep : String} {c : String} {cs : List String}
    (hc : c ≠ "") : joinWith sep (c :: cs) ≠ "" := by
  cases cs with
  | nil => simpa [joinWith] using hc
  | cons d ds =>
    rw [joinWith]
    intro hcon
    have : (c ++ sep ++ joinWith sep (d :: ds)).length = 0 := by rw [hcon]; rfl
    rw [String.length_append, String.length_append] at this
    have hlc : c.length = 0 := by omega
    exact hc (String.ext (by simpa [String.length] using List.length_eq_zero.mp hlc))

/-- Claim C8: for the Anthropic adapter, (a) on every accepted request
the outbound body's message list is the input minus its system messages,
the separate system field is absent when there are no system messages and
otherwise carries all system contents joined in their original order,
and any supplied stop-sequence list is truncated to its first 4 entries;
(b) a request whose first non-system message is not a user message is
rejected; (c) response text is the concatenation of the text-typed
blocks only, in order — inserting a non-text block anywhere changes
nothing, and on all-text block lists the extraction is exactly the
in-order concatenation. -/
theorem anthropic_adapter_shape :
    (∀ req w, anthropicCreate req = .ok w →
      w.messages = req.messages.filter (fun m => m.role != "system") ∧
      (req.messages.filter (fun m => m.role == "system") = [] → w.system = none) ∧
      (∀ m ms, req.messages.filter (fun m => m.role == "system") = m :: ms →
        w.system = some (joinWith "\n\n" ((m :: ms).map ChatMessage.content))) ∧
      (∀ l, req.stop_sequences = some l →
        w.stop_sequences = some (l.take 4) ∧ (l.take 4).length ≤ 4)) ∧
    (∀ req m ms, req.messages.filter (fun m => m.role != "system") = m :: ms →
      m.role ≠ "user" → (anthropicCreate req).isOk = false) ∧
    (∀ l1 l2 b, b.btype ≠ "text" →
      anthropicExtractText (l1 ++ b :: l2) = anthropicExtractText (l1 ++ l2)) ∧
    (∀ blocks, (∀ b ∈ blocks, b.btype = "text") →
      anthropicExtractText blocks = String.join (blocks.map (fun b => b.btext.getD ""))) := by
  refine ⟨?_, ?_, ?_, ?_⟩
  · intro req w hw
    unfold anthropicCreate at hw
    cases hv : validateRequest "Anthropic" req with
    | some e => rw [hv] at hw; cases hw
    | none =>
      rw [hv] at hw
      simp only at hw
      by_cases hfirst : (match req.messages.filter (fun m => m.role != "system") with
          | m :: _ => m.role != "user"
          | [] => false) = true
      · rw [if_pos hfirst] at hw; cases hw
      · rw [if_neg hfirst] at hw
        cases hw
        refine ⟨rfl, ?_, ?_, ?_⟩
        · intro hsys; simp only [hsys]; rfl
        · intro m ms hsys
          have hmem : m ∈ req.messages := by
            have : m ∈ req.messages.filter (fun m => m.role == "system") := by
              rw [hsys]; exact List.mem_cons_self _ _
            exact (List.mem_filter.mp this).1
          have hvalid : m.content ≠ "" := by
            unfold validateRequest at hv
            by_cases hm : req.model == ""
            · rw [if_pos hm] at hv; cases hv
            · rw [if_neg hm] at hv
              by_cases he : req.messages.isEmpty
              · rw [if_pos he] at hv; cases hv
              · rw [if_neg he] at hv
                exact (validateMessageList_none hv m hmem).2
          simp only [hsys]
          rw [if_neg (by simp)]
          simp only [jsTruthyStrOpt]
          rw [if_neg ?_]
          simp only [List.map_cons]
          intro hcon
          have hne : joinWith "\n\n" (m.content :: ms.map ChatMessage.content) ≠ "" :=
            joinWith_ne_empty hvalid
          exact absurd (of_decide_eq_true hcon) hne
        · intro l hl
          simp only [hl, Option.map_some]
          exact ⟨rfl, by simp⟩
  · intro req m ms hconv hrole
    unfold anthropicCreate
    cases hv : validateRequest "Anthropic" req with
    | some e => rfl
    | none =>
      simp only
      rw [if_pos ?_]
      · rfl
      · rw [hconv]
        simpa using hrole
  · intro l1 l2 b hb
    unfold anthropicExtractText
    rw [List.filter_append, List.filter_append, List.filter_cons,
      if_neg (by simpa using hb)]
  · intro blocks hall
    unfold anthropicExtractText
    rw [List.filter_eq_self.mpr (fun b hb => by simpa using hall b hb)]

/-- Witness for claim C8: a request with two system messages, a leading
user message, and six stop sequences.  The wire body joins the two
system contents with a blank line, keeps only the non-system messages,
and truncates the stop sequences to four. -/
theorem anthropic_adapter_shape_witness :
    anthropicCreate anthropicReq =
      .ok { model := "m", messages := [{ role := "user", content := "hi" }],
            max_tokens := 2048, system := some "a\n\nb",
            temperature := none, top_p := none,
            stop_sequences := some ["1", "2", "3", "4"], stream := none } ∧
    (∀ w, anthropicCreate anthropicReq = .ok w →
      w.messages = anthropicReq.messages.filter (fun m => m.role != "system") ∧
      (∀ l, anthropicReq.stop_sequences = some l →
        w.stop_sequences = some (l.take 4) ∧ (l.take 4).length ≤ 4)) := by
  refine ⟨rfl, fun w hw => ?_⟩
  have h := anthropic_adapter_shape.1 anthropicReq w hw
  exact ⟨h.1, h.2.2.2⟩

/-! ### Claim C6: tier-2 placeholder synthesis -/

lemma jsHasOwn_false_getField {parsed : Json} {f : String}
    (h : jsHasOwn parsed f = false) : jsGetField parsed f = none := by
  unfold jsHasOwn at h
  exact Option.not_isSome_iff_eq_none.mp (by simp [h])

lemma jsFieldOr_of_missing {parsed : Json} {f : String} {d : Json}
    (h : jsHasOwn parsed f = false) : jsFieldOr parsed f d = d := by
  unfold jsFieldOr
  rw [jsHasOwn_false_getField h]

/-- Claim C6.  When strict parsing fails but the text has a first `{` and
a later last `}`, and the enclosed substring re-parses (after stripping
trailing commas) to a value missing some of the five required fields,
tier 2 returns the synthesized record in which every missing field holds
its fixed placeholder string — and both pipelines accept that record as
their (valid) result. -/
theorem tier2_placeholder_synthesis (content s : List Char) (parsed : Json)
    (hstrict : parseJsonText content = none)
    (hslice : braceSlice content = some s)
    (hparse : parseJsonText (stripTrailingCommas (s.length + 1) s) = some parsed)
    (hmissing : requiredFields.all (fun f => jsHasOwn parsed f) = false) :
    (∀ eA eF, tier2Full eA eF content = some (fillMissingFields parsed, eF)) ∧
    (jsHasOwn parsed "context" = false →
      jsGetField (fillMissingFields parsed) "context" = some (.str "No context provided")) ∧
    (jsHasOwn parsed "role" = false →
      jsGetField (fillMissingFields parsed) "role" = some (.str "Expert assistant")) ∧
    (jsHasOwn parsed "task" = false →
      jsGetField (fillMissingFields parsed) "task" = some (.str "Complete the requested task")) ∧
    (jsHasOwn parsed "constraints" = false →
      jsGetField (fillMissingFields parsed) "constraints" = some (.str "Follow best practices")) ∧
    (jsHasOwn parsed "output" = false →
      jsGetField (fillMissingFields parsed) "output" = some (.str "Provide appropriate output")) ∧
    (∀ raw, initialParseContent content raw =
      (fillMissingFields parsed, "Initial prompt generation with field validation.")) ∧
    (∀ k, refineParseContent k content =
      some (fillMissingFields parsed, "Refined prompt generation with field validation.")) := by
  have htier2 : ∀ eA eF, tier2Full eA eF content = some (fillMissingFields parsed, eF) := by
    intro eA eF
    unfold tier2Full tier2Parse
    rw [hslice]
    rw [Option.some_bind]
    rw [hparse]
    rw [Option.map_some']
    rw [if_neg (by rw [hmissing]; exact Bool.false_ne_true)]
  have hget : ∀ (f : String) (d : Json), jsHasOwn parsed f = false →
      jsGetField (fillMissingFields parsed) f =
        (jsGetField (fillMissingFields parsed) f) := fun _ _ _ => rfl
  refine ⟨htier2, ?_, ?_, ?_, ?_, ?_, ?_, ?_⟩
  · intro h
    show some (jsFieldOr parsed "context" (.str "No context provided")) = _
    rw [jsFieldOr_of_missing h]
  · intro h
    show some (jsFieldOr parsed "role" (.str "Expert assistant")) = _
    rw [jsFieldOr_of_missing h]
  · intro h
    show some (jsFieldOr parsed "task" (.str "Complete the requested task")) = _
    rw [jsFieldOr_of_missing h]
  · intro h
    show some (jsFieldOr parsed "constraints" (.str "Follow best practices")) = _
    rw [jsFieldOr_of_missing h]
  · intro h
    show some (jsFieldOr parsed "output" (.str "Provide appropriate output")) = _
    rw [jsFieldOr_of_missing h]
  · intro raw
    unfold initialParseContent
    rw [hstrict, htier2]
  · intro k
    unfold refineParseContent
    rw [hstrict, htier2]

/-- Witness for claim C6: a response with junk around a two-field object
that also carries a trailing comma.  Tier 2 strips the comma, re-parses,
and fills the three missing fields with their placeholders. -/
theorem tier2_placeholder_synthesis_witness :
    parseJsonText "junk \x7b\"context\":\"A\",\"role\":\"B\",\x7d tail".data = none ∧
    braceSlice "junk \x7b\"context\":\"A\",\"role\":\"B\",\x7d tail".data =
      some "\x7b\"context\":\"A\",\"role\":\"B\",\x7d".data ∧
    (∀ eA eF, tier2Full eA eF "junk \x7b\"context\":\"A\",\"role\":\"B\",\x7d tail".data =
      some (fillMissingFields (.obj [("context", .str "A"), ("role", .str "B")]), eF)) ∧
    jsGetField (fillMissingFields (.obj [("context", .str "A"), ("role", .str "B")])) "task" =
      some (.str "Complete the requested task") := by
  refine ⟨rfl, rfl, ?_, ?_⟩
  · exact (tier2_placeholder_synthesis
      "junk \x7b\"context\":\"A\",\"role\":\"B\",\x7d tail".data
      "\x7b\"context\":\"A\",\"role\":\"B\",\x7d".data
      (.obj [("context", .str "A"), ("role", .str "B")]) rfl rfl rfl rfl).1
  · exact (tier2_placeholder_synthesis
      "junk \x7b\"context\":\"A\",\"role\":\"B\",\x7d tail".data
      "\x7b\"context\":\"A\",\"role\":\"B\",\x7d".data
      (.obj [("context", .str "A"), ("role", .str "B")]) rfl rfl rfl rfl).2.2.2.1 rfl

/-! ### Claim C4: the two parse pipelines are not the same -/

/-- Counterexample to claim C4.  The response text `context: alpha` has no
braces, so tiers 1–2 fail; the initial-generation pipeline recovers the
context field by regex and synthesizes a record, while the refinement
pipeline — which has no regex tier — returns null for the very same
text.  Moreover a text with no recoverable fields still does not yield
null in the initial pipeline (the unconditional fallback record fires),
so "null exactly when zero fields are recoverable" also fails. -/
theorem parse_tiers_differ :
    refineParseContent 2 "context: alpha".data = none ∧
    initialParseContent "context: alpha".data "raw".data =
      (extractionRecord "context: alpha".data "raw".data,
        "Initial prompt generation with field extraction fallback.") ∧
    extractField "context: alpha".data "context".data = some "alpha".data ∧
    extractField "no recoverable fields".data "context".data = none ∧
    extractField "no recoverable fields".data "role".data = none ∧
    extractField "no recoverable fields".data "task".data = none ∧
    extractField "no recoverable fields".data "constraints".data = none ∧
    extractField "no recoverable fields".data "output".data = none ∧
    initialParseContent "no recoverable fields".data "raw".data =
      (ultimateRecord "raw".data, "Initial prompt generation with automatic structuring.") :=
  ⟨rfl, rfl, rfl, rfl, rfl, rfl, rfl, rfl, rfl⟩

/-- Claim C4 (amended).  The two parse pipelines share tiers 1 and 2
verbatim, and differ beyond them: the refinement parse returns null
exactly when tiers 1–2 both fail, while the initial-generation parse
then applies per-field regex extraction — synthesizing a record from
templates when at least one of context, role, or task is recovered
non-empty — and otherwise an unconditional fallback record, never
null. -/
theorem parse_pipelines_amended :
    (∀ c v raw k, parseJsonText c = some v →
      initialParseContent c raw = (v, "Initial prompt generation.") ∧
      refineParseContent k c =
        some (v, "Refined prompt based on PE2 principles (Iteration " ++ toString k ++ ").")) ∧
    (∀ c r raw, parseJsonText c = none →
      tier2Full "Initial prompt generation."
        "Initial prompt generation with field validation." c = some r →
      initialParseContent c raw = r) ∧
    (∀ c r k, parseJsonText c = none →
      tier2Full "Refined prompt generation."
        "Refined prompt generation with field validation." c = some r →
      refineParseContent k c = some r) ∧
    (∀ k c, refineParseContent k c = none ↔
      (parseJsonText c = none ∧
       tier2Full "Refined prompt generation."
         "Refined prompt generation with field validation." c = none)) ∧
    (∀ c raw, parseJsonText c = none →
      tier2Full "Initial prompt generation."
        "Initial prompt generation with field validation." c = none →
      ((strOptTruthy (extractField c "context".data) ||
        strOptTruthy (extractField c "role".data) ||
        strOptTruthy (extractField c "task".data)) = true →
        initialParseContent c raw = (extractionRecord c raw,
          "Initial prompt generation with field extraction fallback.")) ∧
      ((strOptTruthy (extractField c "context".data) ||
        strOptTruthy (extractField c "role".data) ||
        strOptTruthy (extractField c "task".data)) = false →
        initialParseContent c raw = (ultimateRecord raw,
          "Initial prompt generation with automatic structuring."))) := by
  refine ⟨?_, ?_, ?_, ?_, ?_⟩
  · intro c v raw k h
    constructor
    · unfold initialParseContent; rw [h]
    · unfold refineParseContent; rw [h]
  · intro c r raw h1 h2
    unfold initialParseContent
    rw [h1, h2]
  · intro c r k h1 h2
    unfold refineParseContent
    rw [h1, h2]
  · intro k c
    unfold refineParseContent
    cases h1 : parseJsonText c with
    | some v => simp [h1]
    | none =>
      cases h2 : tier2Full "Refined prompt generation."
          "Refined prompt generation with field validation." c with
      | some r => simp [h2]
      | none => simp [h2]
  · intro c raw h1 h2
    constructor
    · intro h3
      unfold initialParseContent
      rw [h1, h2, if_pos h3]
    · intro h3
      unfold initialParseContent
      rw [h1, h2, if_neg (by rw [h3]; exact Bool.false_ne_true)]

/-- Witness for claim C4 (amended): a strictly valid object text goes
through tier 1 identically in both pipelines. -/
theorem parse_pipelines_amended_witness :
    parseJsonText "\x7b\"a\":1\x7d".data = some (.obj [("a", .num "1")]) ∧
    initialParseContent "\x7b\"a\":1\x7d".data "r".data =
      (.obj [("a", .num "1")], "Initial prompt generation.") ∧
    refineParseContent 2 "\x7b\"a\":1\x7d".data =
      some (.obj [("a", .num "1")],
        "Refined prompt based on PE2 principles (Iteration 2).") := by
  refine ⟨rfl, ?_, ?_⟩
  · exact (parse_pipelines_amended.1 "\x7b\"a\":1\x7d".data
      (.obj [("a", .num "1")]) "r".data 2 rfl).1
  · exact (parse_pipelines_amended.1 "\x7b\"a\":1\x7d".data
      (.obj [("a", .num "1")]) "r".data 2 rfl).2


/-! ### Claim C7: tier 2 on strictly valid text -/

/-- Counterexample to claim C7.  `c7text` is a strictly valid five-field
record, yet running tier-2 brace extraction on it yields a different
record than tier-1 strict parsing: the trailing-comma strip rewrites the
`,\x7d` inside the context string value, so tier 2 returns context `"\x7d"`
where tier 1 returns `",\x7d"`. -/
theorem tier2_differs_on_valid_text :
    parseJsonText c7text = some c7value ∧
    requiredFields.all (fun f => jsHasOwn c7value f) = true ∧
    tier2Parse c7text = some c7valueStripped ∧
    (∀ eA eF, tier2Full eA eF c7text = some (c7valueStripped, eA)) ∧
    c7value ≠ c7valueStripped := by
  refine ⟨rfl, rfl, rfl, fun eA eF => rfl, ?_⟩
  intro h
  simp only [c7value, c7valueStripped, Json.obj.injEq, List.cons.injEq, Prod.mk.injEq,
    Json.str.injEq] at h
  exact absurd h.1.2 (by decide)

/-! #### Scanning helpers for the amended claim C7 -/

lemma dropWhile_head_not {p : Char → Bool} {l r : List Char} {c : Char}
    (h : l.dropWhile p = c :: r) : p c = false := by
  induction l with
  | nil => cases h
  | cons a t ih =>
    rw [List.dropWhile_cons] at h
    by_cases ha : p a = true
    · rw [if_pos ha] at h; exact ih h
    · rw [if_neg ha] at h
      cases h
      simpa using ha

lemma dropWhile_all_append {p : Char → Bool} {ws : List Char} (x : List Char)
    (h : ∀ c ∈ ws, p c = true) : (ws ++ x).dropWhile p = x.dropWhile p := by
  induction ws with
  | nil => rfl
  | cons a t ih =>
    rw [List.cons_append, List.dropWhile_cons, if_pos (h a (by simp))]
    exact ih (fun c hc => h c (by simp [hc]))

lemma dropWhile_cons_neg {p : Char → Bool} {c : Char} (r : List Char)
    (h : p c = false) : (c :: r).dropWhile p = c :: r := by
  rw [List.dropWhile_cons, if_neg (by simp [h])]

lemma dropWhile_decomp (p : Char → Bool) (l : List Char) :
    ∃ w, l = w ++ l.dropWhile p ∧ ∀ c ∈ w, p c = true :=
  ⟨l.takeWhile p, (List.takeWhile_append_dropWhile p l).symm,
    fun _ hc => List.mem_takeWhile_imp hc⟩

lemma dropWhile_nil_all {p : Char → Bool} {l : List Char}
    (h : l.dropWhile p = []) : ∀ c ∈ l, p c = true :=
  List.dropWhile_eq_nil_iff.mp h

lemma idxOf?_prepend {c : Char} {pre : List Char} (t : List Char)
    (h : ∀ d ∈ pre, d ≠ c) : idxOf? c (pre ++ c :: t) = some pre.length := by
  induction pre with
  | nil => simp [idxOf?]
  | cons a r ih =>
    rw [List.cons_append, idxOf?]
    rw [if_neg (by simpa using h a (by simp))]
    rw [ih (fun d hd => h d (by simp [hd]))]
    rfl

lemma lastIdxOf?_eq {c : Char} {a b : List Char}
    (h : ∀ d ∈ b, d ≠ c) : lastIdxOf? c (a ++ c :: b) = some a.length := by
  unfold lastIdxOf?
  have hrev : (a ++ c :: b).reverse = b.reverse ++ c :: a.reverse := by
    simp
  rw [hrev, idxOf?_prepend a.reverse (fun d hd => h d (List.mem_reverse.mp hd))]
  have hlen : (a ++ c :: b).length = a.length + b.length + 1 := by
    simp [List.length_append]; omega
  rw [hlen]
  show some (a.length + b.length + 1 - 1 - b.reverse.length) = some a.length
  rw [List.length_reverse]
  have harith : a.length + b.length + 1 - 1 - b.length = a.length := by omega
  rw [harith]

lemma braceSlice_decomp {ws1 mid rest : List Char}
    (hws : ∀ d ∈ ws1, d ≠ '\x7b')
    (hrest : ∀ d ∈ rest, d ≠ '\x7d') :
    braceSlice (ws1 ++ ('\x7b' :: mid ++ ['\x7d']) ++ rest) =
      some ('\x7b' :: mid ++ ['\x7d']) := by
  unfold braceSlice
  have e1 : ws1 ++ ('\x7b' :: mid ++ ['\x7d']) ++ rest =
      ws1 ++ '\x7b' :: (mid ++ ['\x7d'] ++ rest) := by simp
  have e2 : ws1 ++ ('\x7b' :: mid ++ ['\x7d']) ++ rest =
      (ws1 ++ '\x7b' :: mid) ++ '\x7d' :: rest := by simp
  have hfirst : idxOf? '\x7b' (ws1 ++ ('\x7b' :: mid ++ ['\x7d']) ++ rest) =
      some ws1.length := by
    rw [e1, idxOf?_prepend _ hws]
  have hlast : lastIdxOf? '\x7d' (ws1 ++ ('\x7b' :: mid ++ ['\x7d']) ++ rest) =
      some (ws1.length + mid.length + 1) := by
    rw [e2, lastIdxOf?_eq hrest]
    simp [List.length_append]
    omega
  simp only [hfirst, hlast]
  rw [if_pos (by omega)]
  have e3 : ws1 ++ ('\x7b' :: mid ++ ['\x7d']) ++ rest =
      ws1 ++ (('\x7b' :: mid ++ ['\x7d']) ++ rest) := by simp
  rw [e3]
  have hdrop : (ws1 ++ (('\x7b' :: mid ++ ['\x7d']) ++ rest)).drop ws1.length =
      ('\x7b' :: mid ++ ['\x7d']) ++ rest := List.drop_left _ _
  rw [hdrop]
  have htakelen : ws1.length + mid.length + 1 + 1 - ws1.length =
      ('\x7b' :: mid ++ ['\x7d']).length := by
    simp [List.length_append]
    omega
  rw [htakelen, List.take_left]

lemma wsThenClose_isSome_append {rest : List Char} (r : List Char)
    (h : (wsThenClose rest).isSome = true) : (wsThenClose (rest ++ r)).isSome = true := by
  unfold wsThenClose at h ⊢
  cases hd : rest.dropWhile isJsWs with
  | nil => rw [hd] at h; simp at h
  | cons cl rest2 =>
    rw [hd] at h
    by_cases hcl : (cl == '\x7d' || cl == ']') = true
    · obtain ⟨w, hw, hall⟩ := dropWhile_decomp isJsWs rest
      rw [hd] at hw
      have : (rest ++ r).dropWhile isJsWs = cl :: (rest2 ++ r) := by
        rw [hw, List.append_assoc, dropWhile_all_append _ hall, List.cons_append,
          dropWhile_cons_neg _ (dropWhile_head_not hd)]
      rw [this]
      simp [hcl]
    · simp [hcl] at h

lemma hasTrailingCommaPat_append_right {m : List Char} (r : List Char)
    (h : hasTrailingCommaPat m = true) : hasTrailingCommaPat (m ++ r) = true := by
  induction m with
  | nil => cases h
  | cons c rest ih =>
    rw [hasTrailingCommaPat] at h
    rw [List.cons_append, hasTrailingCommaPat]
    rcases Bool.or_eq_true_iff.mp h with h1 | h2
    · have hc := Bool.and_eq_true_iff.mp h1
      rw [hc.1]
      rw [Bool.true_and]
      rw [wsThenClose_isSome_append r hc.2]
      rfl
    · rw [ih h2, Bool.or_true]

lemma hasTrailingCommaPat_append_left (l : List Char) {m : List Char}
    (h : hasTrailingCommaPat m = true) : hasTrailingCommaPat (l ++ m) = true := by
  induction l with
  | nil => exact h
  | cons c rest ih =>
    rw [List.cons_append, hasTrailingCommaPat, ih, Bool.or_true]

lemma hasTrailingCommaPat_infix {l m r : List Char}
    (h : hasTrailingCommaPat (l ++ m ++ r) = false) :
    hasTrailingCommaPat m = false := by
  by_contra hcon
  rw [Bool.not_eq_false] at hcon
  rw [List.append_assoc, hasTrailingCommaPat_append_left l
    (hasTrailingCommaPat_append_right r hcon)] at h
  cases h

lemma parseEscape_cons (c : Char) (rest : List Char) :
    parseEscape (c :: rest) =
      (if c == '"' then some ('"', rest)
       else if c == '\\' then some ('\\', rest)
       else if c == '/' then some ('/', rest)
       else if c == 'b' then some ('\x08', rest)
       else if c == 'f' then some ('\x0c', rest)
       else if c == 'n' then some ('\n', rest)
       else if c == 'r' then some ('\r', rest)
       else if c == 't' then some ('\t', rest)
       else if c == 'u' then
         match rest with
         | a :: b :: c2 :: d :: rest2 =>
           (match hexVal? a, hexVal? b, hexVal? c2, hexVal? d with
            | some x, some y, some z, some w =>
              let n := ((x * 16 + y) * 16 + z) * 16 + w
              if n < 0xd800 || (0xdfff < n && n < 0x110000) then some (Char.ofNat n, rest2)
              else none
            | _, _, _, _ => none)
         | _ => none
       else none) := rfl

lemma parseEscape_spec {cs : List Char} {e : Char} {r : List Char}
    (h : parseEscape cs = some (e, r)) :
    ∃ pre, cs = pre ++ r ∧ pre ≠ [] ∧ ∀ tl, parseEscape (pre ++ tl) = some (e, tl) := by
  cases cs with
  | nil => cases h
  | cons c rest =>
    rw [parseEscape_cons] at h
    by_cases h1 : c == '"'
    · obtain rfl := eq_of_beq h1
      rw [if_pos h1] at h
      obtain ⟨rfl, rfl⟩ := some_pair_inj h
      exact ⟨['"'], rfl, by simp, fun tl => rfl⟩
    · rw [if_neg h1] at h
      by_cases h2 : c == '\\'
      · obtain rfl := eq_of_beq h2
        rw [if_pos h2] at h
        obtain ⟨rfl, rfl⟩ := some_pair_inj h
        exact ⟨['\\'], rfl, by simp, fun tl => rfl⟩
      · rw [if_neg h2] at h
        by_cases h3 : c == '/'
        · obtain rfl := eq_of_beq h3
          rw [if_pos h3] at h
          obtain ⟨rfl, rfl⟩ := some_pair_inj h
          exact ⟨['/'], rfl, by simp, fun tl => rfl⟩
        · rw [if_neg h3] at h
          by_cases h4 : c == 'b'
          · obtain rfl := eq_of_beq h4
            rw [if_pos h4] at h
            obtain ⟨rfl, rfl⟩ := some_pair_inj h
            exact ⟨['b'], rfl, by simp, fun tl => rfl⟩
          · rw [if_neg h4] at h
            by_cases h5 : c == 'f'
            · obtain rfl := eq_of_beq h5
              rw [if_pos h5] at h
              obtain ⟨rfl, rfl⟩ := some_pair_inj h
              exact ⟨['f'], rfl, by simp, fun tl => rfl⟩
            · rw [if_neg h5] at h
              by_cases h6 : c == 'n'
              · obtain rfl := eq_of_beq h6
                rw [if_pos h6] at h
                obtain ⟨rfl, rfl⟩ := some_pair_inj h
                exact ⟨['n'], rfl, by simp, fun tl => rfl⟩
              · rw [if_neg h6] at h
                by_cases h7 : c == 'r'
                · obtain rfl := eq_of_beq h7
                  rw [if_pos h7] at h
                  obtain ⟨rfl, rfl⟩ := some_pair_inj h
                  exact ⟨['r'], rfl, by simp, fun tl => rfl⟩
                · rw [if_neg h7] at h
                  by_cases h8 : c == 't'
                  · obtain rfl := eq_of_beq h8
                    rw [if_pos h8] at h
                    obtain ⟨rfl, rfl⟩ := some_pair_inj h
                    exact ⟨['t'], rfl, by simp, fun tl => rfl⟩
                  · rw [if_neg h8] at h
                    by_cases h9 : c == 'u'
                    · obtain rfl := eq_of_beq h9
                      rw [if_pos h9] at h
                      match rest, h with
                      | [], h => cases h
                      | [a], h => cases h
                      | [a, b], h => cases h
                      | [a, b, c2], h => cases h
                      | a :: b :: c2 :: d :: rest2, h =>
                        cases hxa : hexVal? a with
                        | none => simp only [hxa] at h; cases h
                        | some x =>
                          cases hxb : hexVal? b with
                          | none => simp only [hxa, hxb] at h; cases h
                          | some y =>
                            cases hxc : hexVal? c2 with
                            | none => simp only [hxa, hxb, hxc] at h; cases h
                            | some z =>
                              cases hxd : hexVal? d with
                              | none => simp only [hxa, hxb, hxc, hxd] at h; cases h
                              | some w =>
                                simp only [hxa, hxb, hxc, hxd] at h
                                by_cases hrange :
                                    (((x * 16 + y) * 16 + z) * 16 + w < 0xd800 ||
                                     (0xdfff < ((x * 16 + y) * 16 + z) * 16 + w &&
                                      ((x * 16 + y) * 16 + z) * 16 + w < 0x110000)) = true
                                · rw [if_pos hrange] at h
                                  obtain ⟨rfl, rfl⟩ := some_pair_inj h
                                  refine ⟨['u', a, b, c2, d], rfl, by simp, fun tl => ?_⟩
                                  rw [show (['u', a, b, c2, d] ++ tl) =
                                        'u' :: a :: b :: c2 :: d :: tl from rfl]
                                  rw [parseEscape_cons, if_neg h1, if_neg h2, if_neg h3,
                                    if_neg h4, if_neg h5, if_neg h6, if_neg h7, if_neg h8,
                                    if_pos h9]
                                  simp only [hxa, hxb, hxc, hxd]
                                  rw [if_pos hrange]
                                · rw [if_neg hrange] at h
                                  cases h
                    · rw [if_neg h9] at h
                      cases h

lemma parseStringBody_cons (f : Nat) (c : Char) (rest : List Char) :
    parseStringBody (f + 1) (c :: rest) =
      (if c == '"' then some ([], rest)
       else if c == '\\' then
         match parseEscape rest with
         | some (e, rest2) =>
           (match parseStringBody f rest2 with
            | some (s, r) => some (e :: s, r)
            | none => none)
         | none => none
       else if c.toNat < 0x20 then none
       else
         match parseStringBody f rest with
         | some (s, r) => some (c :: s, r)
         | none => none) := rfl

lemma parseStringBody_spec : ∀ fuel cs s r, parseStringBody fuel cs = some (s, r) →
    ∃ pre, cs = pre ++ r ∧ pre ≠ [] ∧
      ∀ g tl, pre.length ≤ g → parseStringBody g (pre ++ tl) = some (s, tl) := by
  intro fuel
  induction fuel with
  | zero => intro cs s r h; cases h
  | succ f ih =>
    intro cs s r h
    cases cs with
    | nil => cases h
    | cons c rest =>
      rw [parseStringBody_cons] at h
      by_cases h1 : c == '"'
      · obtain rfl := eq_of_beq h1
        rw [if_pos h1] at h
        obtain ⟨rfl, rfl⟩ := some_pair_inj h
        refine ⟨['"'], rfl, by simp, fun g tl hg => ?_⟩
        match g, hg with
        | g' + 1, _ => rfl
      · rw [if_neg h1] at h
        by_cases h2 : c == '\\'
        · obtain rfl := eq_of_beq h2
          rw [if_pos h2] at h
          cases hesc : parseEscape rest with
          | none => simp only [hesc] at h; cases h
          | some p =>
            obtain ⟨e, rest2⟩ := p
            simp only [hesc] at h
            cases hrec : parseStringBody f rest2 with
            | none => simp only [hrec] at h; cases h
            | some q =>
              obtain ⟨s2, r2⟩ := q
              simp only [hrec] at h
              obtain ⟨rfl, rfl⟩ := some_pair_inj h
              obtain ⟨epre, heq, hene, hrep⟩ := parseEscape_spec hesc
              obtain ⟨spre, heq2, hsne, hrep2⟩ := ih rest2 s2 r2 hrec
              refine ⟨'\\' :: (epre ++ spre), ?_, by simp, fun g tl hg => ?_⟩
              · rw [heq, heq2]
                simp
              · match g, (by
                  have := List.length_pos.mpr hene
                  simp only [List.length_cons, List.length_append] at hg ⊢
                  omega : 1 ≤ g) with
                | g' + 1, _ =>
                  have hg' : spre.length ≤ g' := by
                    have h1e := List.length_pos.mpr hene
                    simp only [List.length_cons, List.length_append] at hg
                    omega
                  rw [show ('\\' :: (epre ++ spre) ++ tl) =
                        '\\' :: (epre ++ (spre ++ tl)) by simp]
                  rw [parseStringBody_cons]
                  rw [if_neg (by decide), if_pos (by decide)]
                  rw [hrep (spre ++ tl)]
                  simp only [hrep2 g' tl hg']
        · rw [if_neg h2] at h
          by_cases h3 : c.toNat < 0x20
          · rw [if_pos h3] at h; cases h
          · rw [if_neg h3] at h
            cases hrec : parseStringBody f rest with
            | none => simp only [hrec] at h; cases h
            | some q =>
              obtain ⟨s2, r2⟩ := q
              simp only [hrec] at h
              obtain ⟨rfl, rfl⟩ := some_pair_inj h
              obtain ⟨spre, heq2, hsne, hrep2⟩ := ih rest s2 r2 hrec
              refine ⟨c :: spre, by rw [heq2]; simp, by simp, fun g tl hg => ?_⟩
              match g, (by simp only [List.length_cons] at hg; omega : 1 ≤ g) with
              | g' + 1, _ =>
                have hg' : spre.length ≤ g' := by
                  simp only [List.length_cons] at hg
                  omega
                rw [List.cons_append, parseStringBody_cons]
                rw [if_neg h1, if_neg h2, if_neg h3]
                simp only [hrep2 g' tl hg']

lemma takeWhile_replay {p : Char → Bool} : ∀ (ds : List Char) {tl : List Char}, (∀ c ∈ ds, p c = true) →
    extGuard p tl → (ds ++ tl).takeWhile p = ds ∧ (ds ++ tl).dropWhile p = tl := by
  intro ds
  induction ds with
  | nil =>
    intro tl _ hg
    cases tl with
    | nil => exact ⟨rfl, rfl⟩
    | cons c ts =>
      have hc : p c = false := hg
      constructor
      · simp [List.takeWhile_cons, hc]
      · simp [List.dropWhile_cons, hc]
  | cons d ds ih =>
    intro tl hall hg
    have hd : p d = true := hall d (by simp)
    have hrest := ih (fun c hc => hall c (by simp [hc])) hg
    constructor
    · simp [List.takeWhile_cons, hd, hrest.1]
    · simp [List.dropWhile_cons, hd, hrest.2]

lemma extGuard_mono {p q : Char → Bool} (h : ∀ c, p c = false → q c = false) :
    ∀ {tl : List Char}, extGuard p tl → extGuard q tl := by
  intro tl hg
  cases tl with
  | nil => trivial
  | cons c ts => exact h c hg

lemma parseIntPart_cons (c : Char) (rest : List Char) :
    parseIntPart (c :: rest) =
      (if c = '0' then
         (match rest with
          | d :: _ => if d.isDigit then none else some (['0'], rest)
          | [] => some (['0'], []))
       else if c.isDigit then
         some (c :: rest.takeWhile Char.isDigit, rest.dropWhile Char.isDigit)
       else none) := by
  by_cases h : c = '0'
  · subst h
    rw [if_pos rfl]
    rfl
  · rw [if_neg h]
    rcases rest with _ | ⟨d, ds⟩ <;> simp [parseIntPart, h, digitSpan]

lemma parseIntPart_spec : ∀ {cs ip r : List Char}, parseIntPart cs = some (ip, r) →
    cs = ip ++ r ∧ ip ≠ [] ∧ (∀ c ∈ ip, c.isDigit = true) ∧
    ∀ tl, extGuard Char.isDigit tl → parseIntPart (ip ++ tl) = some (ip, tl) := by
  intro cs ip r h
  cases cs with
  | nil => cases h
  | cons c rest =>
    rw [parseIntPart_cons] at h
    by_cases h0 : c = '0'
    · subst h0
      rw [if_pos rfl] at h
      have hnd : rest = [] ∨ ∃ d ds, rest = d :: ds ∧ d.isDigit = false := by
        rcases rest with _ | ⟨d, ds⟩
        · exact Or.inl rfl
        · by_cases hd : d.isDigit
          · rw [show (match d :: ds with
              | d :: _ => if d.isDigit = true then none else some (['0'], d :: ds)
              | [] => some (['0'], [])) = if d.isDigit = true then none
                else some (['0'], d :: ds) from rfl, if_pos hd] at h
            cases h
          · exact Or.inr ⟨d, ds, rfl, by simpa using hd⟩
      have hres : ip = ['0'] ∧ r = rest := by
        rcases hnd with rfl | ⟨d, ds, rfl, hd⟩
        · exact ⟨(some_pair_inj h).1.symm, (some_pair_inj h).2.symm⟩
        · rw [show (match d :: ds with
            | d :: _ => if d.isDigit = true then none else some (['0'], d :: ds)
            | [] => some (['0'], [])) = if d.isDigit = true then none
              else some (['0'], d :: ds) from rfl, if_neg (by simp [hd])] at h
          exact ⟨(some_pair_inj h).1.symm, (some_pair_inj h).2.symm⟩
      obtain ⟨rfl, rfl⟩ := hres
      refine ⟨rfl, by simp, by simp, fun tl hg => ?_⟩
      rw [show ((['0'] : List Char) ++ tl) = '0' :: tl from rfl, parseIntPart_cons, if_pos rfl]
      cases tl with
      | nil => rfl
      | cons d ds =>
        have hd : d.isDigit = false := hg
        rw [show (match d :: ds with
          | d :: _ => if d.isDigit = true then none else some (['0'], d :: ds)
          | [] => some (['0'], [])) = if d.isDigit = true then none
            else some (['0'], d :: ds) from rfl, if_neg (by simp [hd])]
    · rw [if_neg h0] at h
      by_cases hd : c.isDigit
      · rw [if_pos hd] at h
        obtain ⟨rfl, rfl⟩ := some_pair_inj h
        refine ⟨by simp [List.takeWhile_append_dropWhile], by simp, ?_, fun tl hg => ?_⟩
        · intro x hx
          rcases List.mem_cons.mp hx with rfl | hx
          · exact hd
          · exact List.mem_takeWhile_imp hx
        · have hrep := takeWhile_replay (p := Char.isDigit) (rest.takeWhile Char.isDigit)
            (fun x hx => List.mem_takeWhile_imp hx) hg
          rw [List.cons_append, parseIntPart_cons, if_neg h0, if_pos hd, hrep.1, hrep.2]
      · rw [if_neg hd] at h
        cases h

lemma parseFracPart_not_dot {c : Char} (rest : List Char) (h : c ≠ '.') :
    parseFracPart (c :: rest) = some ([], c :: rest) := by
  simp [parseFracPart, h]

lemma parseFracPart_dot (rest : List Char) :
    parseFracPart ('.' :: rest) =
      (if (rest.takeWhile Char.isDigit).isEmpty then none
       else some ('.' :: rest.takeWhile Char.isDigit, rest.dropWhile Char.isDigit)) := rfl

lemma parseFracPart_spec {cs fp r : List Char} (h : parseFracPart cs = some (fp, r)) :
    cs = fp ++ r ∧
    (fp = [] ∨ ∃ ds, fp = '.' :: ds ∧ ds ≠ [] ∧ ∀ c ∈ ds, c.isDigit = true) ∧
    ∀ tl, extGuard (fun c => c == '.' || c.isDigit) tl →
      parseFracPart (fp ++ tl) = some (fp, tl) := by
  cases cs with
  | nil =>
    obtain ⟨rfl, rfl⟩ := some_pair_inj h
    refine ⟨rfl, Or.inl rfl, fun tl hg => ?_⟩
    cases tl with
    | nil => rfl
    | cons c ts =>
      have hc : (c == '.' || c.isDigit) = false := hg
      exact parseFracPart_not_dot ts (by
        intro hcc
        subst hcc
        simp at hc)
  | cons c rest =>
    by_cases hdot : c = '.'
    · subst hdot
      rw [parseFracPart_dot] at h
      by_cases hemp : (rest.takeWhile Char.isDigit).isEmpty
      · rw [if_pos hemp] at h; cases h
      · rw [if_neg hemp] at h
        obtain ⟨rfl, rfl⟩ := some_pair_inj h
        refine ⟨by simp [List.takeWhile_append_dropWhile], ?_, fun tl hg => ?_⟩
        · exact Or.inr ⟨rest.takeWhile Char.isDigit, rfl,
            by simpa [List.isEmpty_iff] using hemp,
            fun x hx => List.mem_takeWhile_imp hx⟩
        · have hrep := takeWhile_replay (p := Char.isDigit) (rest.takeWhile Char.isDigit)
            (fun x hx => List.mem_takeWhile_imp hx)
            (extGuard_mono (fun x hx => by
              simp only [Bool.or_eq_false_iff] at hx
              exact hx.2) hg)
          rw [List.cons_append, parseFracPart_dot, hrep.1, hrep.2, if_neg hemp]
    · have heval : parseFracPart (c :: rest) = some ([], c :: rest) :=
        parseFracPart_not_dot rest hdot
      rw [heval] at h
      obtain ⟨rfl, rfl⟩ := some_pair_inj h
      refine ⟨rfl, Or.inl rfl, fun tl hg => ?_⟩
      cases tl with
      | nil => rfl
      | cons d ts =>
        have hd : (d == '.' || d.isDigit) = false := hg
        exact parseFracPart_not_dot ts (by
          intro hcc
          subst hcc
          simp at hd)

lemma parseExpPart_cons (c : Char) (rest : List Char) :
    parseExpPart (c :: rest) =
      (if c == 'e' || c == 'E' then
         match rest with
         | s :: rest2 =>
           if s == '+' || s == '-' then
             (if (rest2.takeWhile Char.isDigit).isEmpty then none
              else some (c :: s :: rest2.takeWhile Char.isDigit, rest2.dropWhile Char.isDigit))
           else
             (if (rest.takeWhile Char.isDigit).isEmpty then none
              else some (c :: rest.takeWhile Char.isDigit, rest.dropWhile Char.isDigit))
         | [] => none
       else some ([], c :: rest)) := rfl

lemma parseExpPart_not_e {c : Char} (rest : List Char) (he : (c == 'e' || c == 'E') = false) :
    parseExpPart (c :: rest) = some ([], c :: rest) := by
  rw [parseExpPart_cons, if_neg (by simp [he])]

lemma parseExpPart_e_nil {c : Char} (he : (c == 'e' || c == 'E') = true) :
    parseExpPart [c] = none := by
  rw [parseExpPart_cons, if_pos he]

lemma parseExpPart_e_sign {c s : Char} (rest2 : List Char)
    (he : (c == 'e' || c == 'E') = true) (hs : (s == '+' || s == '-') = true) :
    parseExpPart (c :: s :: rest2) =
      (if (rest2.takeWhile Char.isDigit).isEmpty then none
       else some (c :: s :: rest2.takeWhile Char.isDigit, rest2.dropWhile Char.isDigit)) := by
  rw [parseExpPart_cons, if_pos he]
  show (if s == '+' || s == '-' then
          (if (rest2.takeWhile Char.isDigit).isEmpty then none
           else some (c :: s :: rest2.takeWhile Char.isDigit, rest2.dropWhile Char.isDigit))
        else
          (if ((s :: rest2).takeWhile Char.isDigit).isEmpty then none
           else some (c :: (s :: rest2).takeWhile Char.isDigit,
             (s :: rest2).dropWhile Char.isDigit))) = _
  rw [if_pos hs]

lemma parseExpPart_e_nosign {c s : Char} (rest2 : List Char)
    (he : (c == 'e' || c == 'E') = true) (hs : (s == '+' || s == '-') = false) :
    parseExpPart (c :: s :: rest2) =
      (if ((s :: rest2).takeWhile Char.isDigit).isEmpty then none
       else some (c :: (s :: rest2).takeWhile Char.isDigit,
         (s :: rest2).dropWhile Char.isDigit)) := by
  rw [parseExpPart_cons, if_pos he]
  show (if s == '+' || s == '-' then
          (if (rest2.takeWhile Char.isDigit).isEmpty then none
           else some (c :: s :: rest2.takeWhile Char.isDigit, rest2.dropWhile Char.isDigit))
        else
          (if ((s :: rest2).takeWhile Char.isDigit).isEmpty then none
           else some (c :: (s :: rest2).takeWhile Char.isDigit,
             (s :: rest2).dropWhile Char.isDigit))) = _
  rw [if_neg (by simp [hs])]

lemma parseExpPart_spec {cs ep r : List Char} (h : parseExpPart cs = some (ep, r)) :
    cs = ep ++ r ∧
    (ep = [] ∨ ∃ c t, ep = c :: t ∧ (c == 'e' || c == 'E') = true) ∧
    ∀ tl, extGuard (fun c => c == 'e' || c == 'E' || c.isDigit) tl →
      parseExpPart (ep ++ tl) = some (ep, tl) := by
  cases cs with
  | nil =>
    obtain ⟨rfl, rfl⟩ := some_pair_inj h
    refine ⟨rfl, Or.inl rfl, fun tl hg => ?_⟩
    cases tl with
    | nil => rfl
    | cons c ts =>
      have hc : (c == 'e' || c == 'E' || c.isDigit) = false := hg
      exact parseExpPart_not_e ts (by
        simp only [Bool.or_eq_false_iff] at hc
        simp [hc.1.1, hc.1.2])
  | cons c rest =>
    by_cases he : (c == 'e' || c == 'E') = true
    · cases rest with
      | nil => rw [parseExpPart_e_nil he] at h; cases h
      | cons s rest2 =>
        by_cases hs : (s == '+' || s == '-') = true
        · rw [parseExpPart_e_sign rest2 he hs] at h
          by_cases hemp : (rest2.takeWhile Char.isDigit).isEmpty
          · rw [if_pos hemp] at h; cases h
          · rw [if_neg hemp] at h
            obtain ⟨rfl, rfl⟩ := some_pair_inj h
            refine ⟨by simp [List.takeWhile_append_dropWhile],
              Or.inr ⟨c, s :: rest2.takeWhile Char.isDigit, rfl, he⟩, fun tl hg => ?_⟩
            have hrep := takeWhile_replay (p := Char.isDigit)
              (rest2.takeWhile Char.isDigit)
              (fun x hx => List.mem_takeWhile_imp hx)
              (extGuard_mono (fun x hx => by
                simp only [Bool.or_eq_false_iff] at hx
                exact hx.2) hg)
            rw [List.cons_append, List.cons_append, parseExpPart_e_sign _ he hs,
              hrep.1, hrep.2, if_neg hemp]
        · rw [parseExpPart_e_nosign rest2 he (by simpa using hs)] at h
          by_cases hemp : ((s :: rest2).takeWhile Char.isDigit).isEmpty
          · rw [if_pos hemp] at h; cases h
          · rw [if_neg hemp] at h
            obtain ⟨rfl, rfl⟩ := some_pair_inj h
            have hsd : s.isDigit = true := by
              by_contra hsd
              rw [List.takeWhile_cons, if_neg (by simpa using hsd)] at hemp
              exact hemp rfl
            have htw : (s :: rest2).takeWhile Char.isDigit =
                s :: rest2.takeWhile Char.isDigit := by
              rw [List.takeWhile_cons, if_pos (by simpa using hsd)]
            refine ⟨by simp [List.takeWhile_append_dropWhile],
              Or.inr ⟨c, (s :: rest2).takeWhile Char.isDigit, rfl, he⟩, fun tl hg => ?_⟩
            have hrep := takeWhile_replay (p := Char.isDigit)
              (rest2.takeWhile Char.isDigit)
              (fun x hx => List.mem_takeWhile_imp hx)
              (extGuard_mono (fun x hx => by
                simp only [Bool.or_eq_false_iff] at hx
                exact hx.2) hg)
            have htj : (s :: (rest2.takeWhile Char.isDigit ++ tl)).takeWhile Char.isDigit
                = s :: rest2.takeWhile Char.isDigit := by
              rw [List.takeWhile_cons, if_pos hsd, hrep.1]
            have hdj : (s :: (rest2.takeWhile Char.isDigit ++ tl)).dropWhile Char.isDigit
                = tl := by
              rw [List.dropWhile_cons, if_pos hsd, hrep.2]
            rw [htw, List.cons_append, List.cons_append,
              parseExpPart_e_nosign _ he (by simpa using hs), htj, hdj,
              if_neg (by simp)]
    · have heval := parseExpPart_not_e rest (by simpa using he)
      rw [heval] at h
      obtain ⟨rfl, rfl⟩ := some_pair_inj h
      refine ⟨rfl, Or.inl rfl, fun tl hg => ?_⟩
      cases tl with
      | nil => rfl
      | cons d ts =>
        have hd : (d == 'e' || d == 'E' || d.isDigit) = false := hg
        exact parseExpPart_not_e ts (by
          simp only [Bool.or_eq_false_iff] at hd
          simp [hd.1.1, hd.1.2])

lemma parseNumber_neg (rest : List Char) :
    parseNumber ('-' :: rest) =
      (match parseIntPart rest with
       | some (ip, r1) =>
         (match parseFracPart r1 with
          | some (fp, r2) =>
            (match parseExpPart r2 with
             | some (ep, r3) => some ('-' :: (ip ++ fp ++ ep), r3)
             | none => none)
          | none => none)
       | none => none) := rfl

lemma parseNumber_not_neg {c : Char} (rest : List Char) (h : c ≠ '-') :
    parseNumber (c :: rest) =
      (match parseIntPart (c :: rest) with
       | some (ip, r1) =>
         (match parseFracPart r1 with
          | some (fp, r2) =>
            (match parseExpPart r2 with
             | some (ep, r3) => some (ip ++ fp ++ ep, r3)
             | none => none)
          | none => none)
       | none => none) := by
  rw [parseNumber.eq_def]
  split
  · next heq => exact absurd (List.cons.inj heq).1 h
  · rfl

lemma numTailGuards {fp ep tl : List Char}
    (hfp : fp = [] ∨ ∃ ds, fp = '.' :: ds ∧ ds ≠ [] ∧ ∀ c ∈ ds, c.isDigit = true)
    (hep : ep = [] ∨ ∃ c t, ep = c :: t ∧ (c == 'e' || c == 'E') = true)
    (hg : extGuard isNumExtChar tl) :
    extGuard Char.isDigit (fp ++ (ep ++ tl)) ∧
    extGuard (fun c => c == '.' || c.isDigit) (ep ++ tl) ∧
    extGuard (fun c => c == 'e' || c == 'E' || c.isDigit) tl := by
  have hnum : ∀ c : Char, isNumExtChar c = false →
      c.isDigit = false ∧ (c == '.') = false ∧ (c == 'e') = false ∧ (c == 'E') = false := by
    intro c hc
    simp only [isNumExtChar, Bool.or_eq_false_iff] at hc
    exact ⟨hc.1.1.1, hc.1.1.2, hc.1.2, hc.2⟩
  have hg3 : extGuard (fun c => c == 'e' || c == 'E' || c.isDigit) tl :=
    extGuard_mono (fun c hc => by
      obtain ⟨h1, h2, h3, h4⟩ := hnum c hc
      simp [h1, h3, h4]) hg
  have hg2 : extGuard (fun c => c == '.' || c.isDigit) (ep ++ tl) := by
    rcases hep with rfl | ⟨c0, t0, rfl, hc0⟩
    · simp only [List.nil_append]
      exact extGuard_mono (fun c hc => by
        obtain ⟨h1, h2, h3, h4⟩ := hnum c hc
        simp [h1, h2]) hg
    · show (c0 == '.' || c0.isDigit) = false
      rcases Bool.or_eq_true_iff.mp hc0 with hcc | hcc
      · obtain rfl := eq_of_beq hcc
        decide
      · obtain rfl := eq_of_beq hcc
        decide
  have hg1 : extGuard Char.isDigit (fp ++ (ep ++ tl)) := by
    rcases hfp with rfl | ⟨ds, rfl, hne, hds⟩
    · simp only [List.nil_append]
      rcases hep with rfl | ⟨c0, t0, rfl, hc0⟩
      · simp only [List.nil_append]
        exact extGuard_mono (fun c hc => (hnum c hc).1) hg
      · show c0.isDigit = false
        rcases Bool.or_eq_true_iff.mp hc0 with hcc | hcc
        · obtain rfl := eq_of_beq hcc
          decide
        · obtain rfl := eq_of_beq hcc
          decide
    · show ('.').isDigit = false
      decide
  exact ⟨hg1, hg2, hg3⟩

lemma parseNumber_spec {cs lex r : List Char} (h : parseNumber cs = some (lex, r)) :
    cs = lex ++ r ∧ (∃ c t, lex = c :: t ∧ (c == '-' || c.isDigit) = true) ∧
    ∀ tl, extGuard isNumExtChar tl → parseNumber (lex ++ tl) = some (lex, tl) := by
  cases cs with
  | nil => cases h
  | cons c rest =>
    by_cases hneg : c = '-'
    · subst hneg
      rw [parseNumber_neg] at h
      cases hip : parseIntPart rest with
      | none => simp only [hip] at h; cases h
      | some q1 =>
        obtain ⟨ip, r1⟩ := q1
        simp only [hip] at h
        cases hfp : parseFracPart r1 with
        | none => simp only [hfp] at h; cases h
        | some q2 =>
          obtain ⟨fp, r2⟩ := q2
          simp only [hfp] at h
          cases hep : parseExpPart r2 with
          | none => simp only [hep] at h; cases h
          | some q3 =>
            obtain ⟨ep, r3⟩ := q3
            simp only [hep] at h
            obtain ⟨rfl, rfl⟩ := some_pair_inj h
            obtain ⟨hie, hine, hidig, hirep⟩ := parseIntPart_spec hip
            obtain ⟨hfe, hfshape, hfrep⟩ := parseFracPart_spec hfp
            obtain ⟨hee, heshape, herep⟩ := parseExpPart_spec hep
            refine ⟨?_, ⟨'-', ip ++ fp ++ ep, rfl, by simp⟩, fun tl hg => ?_⟩
            · rw [hie, hfe, hee]
              simp
            · obtain ⟨hg1, hg2, hg3⟩ := numTailGuards hfshape heshape hg
              rw [List.cons_append, parseNumber_neg]
              rw [show (ip ++ fp ++ ep) ++ tl = ip ++ (fp ++ (ep ++ tl)) by simp]
              simp only [hirep (fp ++ (ep ++ tl)) hg1, hfrep (ep ++ tl) hg2,
                herep tl hg3]
    · rw [parseNumber_not_neg rest hneg] at h
      cases hip : parseIntPart (c :: rest) with
      | none => simp only [hip] at h; cases h
      | some q1 =>
        obtain ⟨ip, r1⟩ := q1
        simp only [hip] at h
        cases hfp : parseFracPart r1 with
        | none => simp only [hfp] at h; cases h
        | some q2 =>
          obtain ⟨fp, r2⟩ := q2
          simp only [hfp] at h
          cases hep : parseExpPart r2 with
          | none => simp only [hep] at h; cases h
          | some q3 =>
            obtain ⟨ep, r3⟩ := q3
            simp only [hep] at h
            obtain ⟨rfl, rfl⟩ := some_pair_inj h
            obtain ⟨hie, hine, hidig, hirep⟩ := parseIntPart_spec hip
            obtain ⟨hfe, hfshape, hfrep⟩ := parseFracPart_spec hfp
            obtain ⟨hee, heshape, herep⟩ := parseExpPart_spec hep
            rcases ip with _ | ⟨c1, it⟩
            · exact absurd rfl hine
            · have hc1d : c1.isDigit = true := hidig c1 (by simp)
              have hc1ne : c1 ≠ '-' := by
                intro hcc
                subst hcc
                exact absurd hc1d (by decide)
              refine ⟨?_, ⟨c1, it ++ fp ++ ep, by simp, by simp [hc1d]⟩,
                fun tl hg => ?_⟩
              · rw [hie, hfe, hee]
                simp
              · obtain ⟨hg1, hg2, hg3⟩ := numTailGuards hfshape heshape hg
                rw [show ((c1 :: it) ++ fp ++ ep) ++ tl =
                  c1 :: (it ++ (fp ++ (ep ++ tl))) by simp]
                rw [parseNumber_not_neg _ hc1ne]
                rw [show (c1 :: (it ++ (fp ++ (ep ++ tl)))) =
                  (c1 :: it) ++ (fp ++ (ep ++ tl)) from rfl]
                simp only [hirep (fp ++ (ep ++ tl)) hg1, hfrep (ep ++ tl) hg2,
                  herep tl hg3]

lemma parseValue_succ_quote (f : Nat) (rest : List Char) :
    parseValue (f + 1) ('"' :: rest) =
      (match parseStringBody f rest with
       | some (s, r) => some (.str (String.mk s), r)
       | none => none) := rfl

lemma parseValue_succ_lbrace (f : Nat) (rest : List Char) :
    parseValue (f + 1) ('\x7b' :: rest) =
      (match rest.dropWhile isJsonWs with
       | '\x7d' :: r2 => some (.obj [], r2)
       | cs1 =>
         match parseMembersBody f cs1 with
         | some (ms, r) => some (.obj ms, r)
         | none => none) := rfl

lemma parseValue_succ_lbrack (f : Nat) (rest : List Char) :
    parseValue (f + 1) ('[' :: rest) =
      (match rest.dropWhile isJsonWs with
       | ']' :: r2 => some (.arr [], r2)
       | cs1 =>
         match parseElemsBody f cs1 with
         | some (es, r) => some (.arr es, r)
         | none => none) := rfl

lemma parseValue_succ_true (f : Nat) (rest : List Char) :
    parseValue (f + 1) ('t' :: 'r' :: 'u' :: 'e' :: rest) = some (.bool true, rest) := rfl

lemma parseValue_succ_false (f : Nat) (rest : List Char) :
    parseValue (f + 1) ('f' :: 'a' :: 'l' :: 's' :: 'e' :: rest) =
      some (.bool false, rest) := rfl

lemma parseValue_succ_null (f : Nat) (rest : List Char) :
    parseValue (f + 1) ('n' :: 'u' :: 'l' :: 'l' :: rest) = some (.null, rest) := rfl

lemma parseValue_succ_default (f : Nat) {c : Char} (rest : List Char)
    (h1 : c ≠ '"') (h2 : c ≠ '\x7b') (h3 : c ≠ '[') (h4 : c ≠ 't') (h5 : c ≠ 'f')
    (h6 : c ≠ 'n') :
    parseValue (f + 1) (c :: rest) =
      (if c == '-' || c.isDigit then
         match parseNumber (c :: rest) with
         | some (lex, r) => some (.num (String.mk lex), r)
         | none => none
       else none) := by
  rw [parseValue.eq_def]
  split
  · next heq => exact absurd heq (Nat.succ_ne_zero f)
  · split
    · next heq => exact absurd (List.cons.inj heq).1 h1
    · next heq => exact absurd (List.cons.inj heq).1 h2
    · next heq => exact absurd (List.cons.inj heq).1 h3
    · next heq => exact absurd (List.cons.inj heq).1 h4
    · next heq => exact absurd (List.cons.inj heq).1 h5
    · next heq => exact absurd (List.cons.inj heq).1 h6
    · next heq =>
        obtain ⟨h7, h8⟩ := List.cons.inj heq
        rw [← h7]
    · next heq => cases heq

lemma parseMembersBody_succ_quote (f : Nat) (rest : List Char) :
    parseMembersBody (f + 1) ('"' :: rest) =
      (match parseStringBody f rest with
       | some (k, r1) =>
         (match r1.dropWhile isJsonWs with
          | ':' :: r2 =>
            (match parseValue f (r2.dropWhile isJsonWs) with
             | some (v, r3) =>
               (match r3.dropWhile isJsonWs with
                | ',' :: r4 =>
                  (match parseMembersBody f (r4.dropWhile isJsonWs) with
                   | some (ms, r5) => some ((String.mk k, v) :: ms, r5)
                   | none => none)
                | '\x7d' :: r4 => some ([(String.mk k, v)], r4)
                | _ => none)
             | none => none)
          | _ => none)
       | none => none) := rfl

lemma parseElemsBody_succ (f : Nat) (cs : List Char) :
    parseElemsBody (f + 1) cs =
      (match parseValue f cs with
       | some (v, r1) =>
         (match r1.dropWhile isJsonWs with
          | ',' :: r2 =>
            (match parseElemsBody f (r2.dropWhile isJsonWs) with
             | some (es, r3) => some (v :: es, r3)
             | none => none)
          | ']' :: r2 => some ([v], r2)
          | _ => none)
       | none => none) := rfl

lemma isJsonWs_not_numExt {c : Char} (h : isJsonWs c = true) : isNumExtChar c = false := by
  simp only [isJsonWs, Bool.or_eq_true_iff] at h
  rcases h with ((h | h) | h) | h <;> (obtain rfl := eq_of_beq h; decide)

lemma succ_of_one_le {g : Nat} (h : 1 ≤ g) : ∃ j, g = j + 1 := ⟨g - 1, by omega⟩

lemma numGuard_any (v : Json) {x : List Char} (hx : extGuard isNumExtChar x) :
    numGuard v x := by
  cases v <;> first | trivial | exact hx

lemma extGuard_ws_cons {ws : List Char} (hall : ∀ c ∈ ws, isJsonWs c = true)
    {c0 : Char} (h0 : isNumExtChar c0 = false) (y : List Char) :
    extGuard isNumExtChar (ws ++ c0 :: y) := by
  cases ws with
  | nil => exact h0
  | cons w wr => exact isJsonWs_not_numExt (hall w (by simp))

lemma valueStep (f : Nat) (ihm : MembersSpecAt f) (ihe : ElemsSpecAt f) :
    ValueSpecAt (f + 1) := by
  intro cs v r h
  rw [parseValue.eq_def] at h
  split at h
  · cases h
  · next hfe =>
    rename_i f2
    rw [(Nat.succ.inj hfe.symm : f2 = f)] at h
    split at h
    · -- string branch
      next u1 rest =>
      cases hsb : parseStringBody f rest with
      | none => simp only [hsb] at h; cases h
      | some q =>
        obtain ⟨s, r1⟩ := q
        simp only [hsb] at h
        obtain ⟨rfl, rfl⟩ := some_pair_inj h
        obtain ⟨spre, hseq, hsne, hsrep⟩ := parseStringBody_spec f rest s r1 hsb
        refine ⟨'"' :: spre, ?_, ?_, ?_, ?_⟩
        · rw [hseq]; rfl
        · simp
        · exact fun ms hms => Json.noConfusion hms
        intro g tl hg _
        obtain ⟨g', rfl⟩ := succ_of_one_le (show 1 ≤ g by
          simp only [List.length_cons] at hg; omega)
        rw [List.cons_append, parseValue_succ_quote]
        have hth : spre.length ≤ g' := by
          simp only [List.length_cons] at hg; omega
        simp only [hsrep g' tl hth]
    · -- object branch
      next u1 rest =>
      split at h
      · -- empty object
        next r2 heq2 =>
        obtain ⟨rfl, rfl⟩ := some_pair_inj h
        obtain ⟨ws, hwseq, hwsall⟩ := dropWhile_decomp isJsonWs rest
        rw [heq2] at hwseq
        refine ⟨'\x7b' :: (ws ++ ['\x7d']), ?_, ?_, ?_, ?_⟩
        · rw [hwseq]; simp
        · simp
        · exact fun ms _ => ⟨ws, rfl⟩
        intro g tl hg _
        obtain ⟨g', rfl⟩ := succ_of_one_le (show 1 ≤ g by
          simp only [List.length_cons] at hg; omega)
        rw [List.cons_append, parseValue_succ_lbrace]
        rw [show (ws ++ ['\x7d']) ++ tl = ws ++ ('\x7d' :: tl) by simp]
        rw [dropWhile_all_append _ hwsall, dropWhile_cons_neg _ (by decide)]
        rfl
      · -- nonempty object
        next hne =>
        cases hmb : parseMembersBody f (rest.dropWhile isJsonWs) with
        | none => simp only [hmb] at h; cases h
        | some q =>
          obtain ⟨ms, r1⟩ := q
          simp only [hmb] at h
          obtain ⟨rfl, rfl⟩ := some_pair_inj h
          obtain ⟨pm, hpmeq, hpmne, ⟨mid', hpmshape⟩, hpmrep⟩ := ihm _ _ _ hmb
          obtain ⟨ws, hwseq, hwsall⟩ := dropWhile_decomp isJsonWs rest
          rw [hpmeq] at hwseq
          rcases pm with _ | ⟨pm0, pmr⟩
          · exact absurd rfl hpmne
          · have hpm0ws : isJsonWs pm0 = false :=
              dropWhile_head_not (by rw [hpmeq]; rfl)
            have hpm0ne : pm0 ≠ '\x7d' := by
              intro hcc
              subst hcc
              exact hne (pmr ++ r1) (by rw [hpmeq]; rfl)
            refine ⟨'\x7b' :: (ws ++ (pm0 :: pmr)), ?_, ?_, ?_, ?_⟩
            · rw [hwseq]; simp
            · simp
            · refine fun ms' _ => ⟨ws ++ mid', ?_⟩
              rw [hpmshape]
              simp
            intro g tl hg _
            obtain ⟨g', rfl⟩ := succ_of_one_le (show 1 ≤ g by
              simp only [List.length_cons] at hg; omega)
            rw [List.cons_append, parseValue_succ_lbrace]
            rw [show (ws ++ (pm0 :: pmr)) ++ tl = ws ++ ((pm0 :: pmr) ++ tl) by simp]
            rw [dropWhile_all_append _ hwsall]
            rw [show (pm0 :: pmr) ++ tl = pm0 :: (pmr ++ tl) from rfl]
            rw [dropWhile_cons_neg _ hpm0ws]
            split
            · next heqx => exact absurd (List.cons.inj heqx).1 hpm0ne
            · have hth : 2 * (pm0 :: pmr).length ≤ g' := by
                simp only [List.length_cons, List.length_append] at hg ⊢; omega
              have hrep' := hpmrep g' tl hth
              rw [List.cons_append] at hrep'
              simp only [hrep']
    · -- array branch
      next u1 rest =>
      split at h
      · -- empty array
        next r2 heq2 =>
        obtain ⟨rfl, rfl⟩ := some_pair_inj h
        obtain ⟨ws, hwseq, hwsall⟩ := dropWhile_decomp isJsonWs rest
        rw [heq2] at hwseq
        refine ⟨'[' :: (ws ++ [']']), ?_, ?_, ?_, ?_⟩
        · rw [hwseq]; simp
        · simp
        · exact fun ms hms => Json.noConfusion hms
        intro g tl hg _
        obtain ⟨g', rfl⟩ := succ_of_one_le (show 1 ≤ g by
          simp only [List.length_cons] at hg; omega)
        rw [List.cons_append, parseValue_succ_lbrack]
        rw [show (ws ++ [']']) ++ tl = ws ++ (']' :: tl) by simp]
        rw [dropWhile_all_append _ hwsall, dropWhile_cons_neg _ (by decide)]
        rfl
      · -- nonempty array
        next hne =>
        cases heb : parseElemsBody f (rest.dropWhile isJsonWs) with
        | none => simp only [heb] at h; cases h
        | some q =>
          obtain ⟨es, r1⟩ := q
          simp only [heb] at h
          obtain ⟨rfl, rfl⟩ := some_pair_inj h
          obtain ⟨pe, hpeeq, hpene, hperep⟩ := ihe _ _ _ heb
          obtain ⟨ws, hwseq, hwsall⟩ := dropWhile_decomp isJsonWs rest
          rw [hpeeq] at hwseq
          rcases pe with _ | ⟨pe0, per⟩
          · exact absurd rfl hpene
          · have hpe0ws : isJsonWs pe0 = false :=
              dropWhile_head_not (by rw [hpeeq]; rfl)
            have hpe0ne : pe0 ≠ ']' := by
              intro hcc
              subst hcc
              exact hne (per ++ r1) (by rw [hpeeq]; rfl)
            refine ⟨'[' :: (ws ++ (pe0 :: per)), ?_, ?_, ?_, ?_⟩
            · rw [hwseq]; simp
            · simp
            · exact fun ms hms => Json.noConfusion hms
            intro g tl hg _
            obtain ⟨g', rfl⟩ := succ_of_one_le (show 1 ≤ g by
              simp only [List.length_cons] at hg; omega)
            rw [List.cons_append, parseValue_succ_lbrack]
            rw [show (ws ++ (pe0 :: per)) ++ tl = ws ++ ((pe0 :: per) ++ tl) by simp]
            rw [dropWhile_all_append _ hwsall]
            rw [show (pe0 :: per) ++ tl = pe0 :: (per ++ tl) from rfl]
            rw [dropWhile_cons_neg _ hpe0ws]
            split
            · next heqx => exact absurd (List.cons.inj heqx).1 hpe0ne
            · have hth : 2 * (pe0 :: per).length ≤ g' := by
                simp only [List.length_cons, List.length_append] at hg ⊢; omega
              have hrep' := hperep g' tl hth
              rw [List.cons_append] at hrep'
              simp only [hrep']
    · -- true
      next u1 rest =>
      obtain ⟨rfl, rfl⟩ := some_pair_inj h
      refine ⟨['t', 'r', 'u', 'e'], rfl, ?_, ?_, ?_⟩
      · simp
      · exact fun ms hms => Json.noConfusion hms
      intro g tl hg _
      obtain ⟨g', rfl⟩ := succ_of_one_le (show 1 ≤ g by
        simp only [List.length_cons] at hg; omega)
      exact parseValue_succ_true g' tl
    · -- false
      next u1 rest =>
      obtain ⟨rfl, rfl⟩ := some_pair_inj h
      refine ⟨['f', 'a', 'l', 's', 'e'], rfl, ?_, ?_, ?_⟩
      · simp
      · exact fun ms hms => Json.noConfusion hms
      intro g tl hg _
      obtain ⟨g', rfl⟩ := succ_of_one_le (show 1 ≤ g by
        simp only [List.length_cons] at hg; omega)
      exact parseValue_succ_false g' tl
    · -- null
      next u1 rest =>
      obtain ⟨rfl, rfl⟩ := some_pair_inj h
      refine ⟨['n', 'u', 'l', 'l'], rfl, ?_, ?_, ?_⟩
      · simp
      · exact fun ms hms => Json.noConfusion hms
      intro g tl hg _
      obtain ⟨g', rfl⟩ := succ_of_one_le (show 1 ≤ g by
        simp only [List.length_cons] at hg; omega)
      exact parseValue_succ_null g' tl
    · -- number (default) branch
      rename_i u1 c0 tail0 n1 n2 n3 n4 n5 n6
      by_cases hnum : (c0 == '-' || c0.isDigit) = true
      · rw [if_pos hnum] at h
        cases hpn : parseNumber (c0 :: tail0) with
        | none => simp only [hpn] at h; cases h
        | some q =>
          obtain ⟨lex, r1⟩ := q
          simp only [hpn] at h
          obtain ⟨rfl, rfl⟩ := some_pair_inj h
          obtain ⟨hle, ⟨c1, t1, hlex, hc1⟩, hlrep⟩ := parseNumber_spec hpn
          have hc1ne : c1 ≠ '"' ∧ c1 ≠ '\x7b' ∧ c1 ≠ '[' ∧ c1 ≠ 't' ∧ c1 ≠ 'f' ∧
              c1 ≠ 'n' := by
            rcases Bool.or_eq_true_iff.mp hc1 with hcc | hcc
            · obtain rfl := eq_of_beq hcc
              exact ⟨by decide, by decide, by decide, by decide, by decide, by decide⟩
            · refine ⟨?_, ?_, ?_, ?_, ?_, ?_⟩ <;>
                (intro hx; subst hx; exact absurd hcc (by decide))
          refine ⟨lex, hle, ?_, ?_, ?_⟩
          · rw [hlex]; simp
          · exact fun ms hms => Json.noConfusion hms
          intro g tl hg hng
          have hng' : extGuard isNumExtChar tl := hng
          obtain ⟨g', rfl⟩ := succ_of_one_le (show 1 ≤ g by
            rw [hlex] at hg
            simp only [List.length_cons] at hg; omega)
          have hshape : lex ++ tl = c1 :: (t1 ++ tl) := by rw [hlex]; rfl
          rw [hshape, parseValue_succ_default g' _ hc1ne.1 hc1ne.2.1 hc1ne.2.2.1
            hc1ne.2.2.2.1 hc1ne.2.2.2.2.1 hc1ne.2.2.2.2.2, if_pos hc1, ← hshape]
          simp only [hlrep tl hng']
      · rw [if_neg hnum] at h
        cases h
    · -- nil
      cases h

lemma membersStep (f : Nat) (ihv : ValueSpecAt f) (ihm : MembersSpecAt f) :
    MembersSpecAt (f + 1) := by
  intro cs ms r h
  rw [parseMembersBody.eq_def] at h
  split at h
  · cases h
  · next hfe =>
    rename_i f2
    rw [(Nat.succ.inj hfe.symm : f2 = f)] at h
    split at h
    · -- key string branch
      next u1 rest =>
      cases hsb : parseStringBody f rest with
      | none => simp only [hsb] at h; cases h
      | some q =>
        obtain ⟨k, r1⟩ := q
        simp only [hsb] at h
        split at h
        · -- colon found
          next r2 heq2 =>
          cases hpv : parseValue f (r2.dropWhile isJsonWs) with
          | none => simp only [hpv] at h; cases h
          | some q2 =>
            obtain ⟨v, r3⟩ := q2
            simp only [hpv] at h
            obtain ⟨spre, hseq, hsne, hsrep⟩ := parseStringBody_spec f rest k r1 hsb
            obtain ⟨ws1, hw1eq, hw1all⟩ := dropWhile_decomp isJsonWs r1
            rw [heq2] at hw1eq
            obtain ⟨pv, hpveq, hpvne, hpvobj, hpvrep⟩ := ihv _ _ _ hpv
            obtain ⟨ws2, hw2eq, hw2all⟩ := dropWhile_decomp isJsonWs r2
            rw [hpveq] at hw2eq
            rcases pv with _ | ⟨pv0, pvr⟩
            · exact absurd rfl hpvne
            have hpv0ws : isJsonWs pv0 = false :=
              dropWhile_head_not (by rw [hpveq]; rfl)
            split at h
            · -- comma: another member follows
              next r4 heq3 =>
              cases hmr : parseMembersBody f (r4.dropWhile isJsonWs) with
              | none => simp only [hmr] at h; cases h
              | some q3 =>
                obtain ⟨ms2, r5⟩ := q3
                simp only [hmr] at h
                obtain ⟨rfl, rfl⟩ := some_pair_inj h
                obtain ⟨ws3, hw3eq, hw3all⟩ := dropWhile_decomp isJsonWs r3
                rw [heq3] at hw3eq
                obtain ⟨pm2, hpm2eq, hpm2ne, ⟨mid2, hpm2shape⟩, hpm2rep⟩ := ihm _ _ _ hmr
                obtain ⟨ws4, hw4eq, hw4all⟩ := dropWhile_decomp isJsonWs r4
                rw [hpm2eq] at hw4eq
                rcases pm2 with _ | ⟨pm0, pmr⟩
                · exact absurd rfl hpm2ne
                have hpm0ws : isJsonWs pm0 = false :=
                  dropWhile_head_not (by rw [hpm2eq]; rfl)
                refine ⟨'"' :: (spre ++ (ws1 ++ (':' :: (ws2 ++ ((pv0 :: pvr) ++
                  (ws3 ++ (',' :: (ws4 ++ (pm0 :: pmr))))))))), ?_, ?_, ?_, ?_⟩
                · rw [hseq, hw1eq, hw2eq, hw3eq, hw4eq]
                  simp
                · simp
                · refine ⟨'"' :: (spre ++ (ws1 ++ (':' :: (ws2 ++ ((pv0 :: pvr) ++
                    (ws3 ++ (',' :: (ws4 ++ mid2)))))))), ?_⟩
                  rw [hpm2shape]
                  simp
                intro g tl hg
                obtain ⟨g', rfl⟩ := succ_of_one_le (show 1 ≤ g by
                  simp only [List.length_cons] at hg; omega)
                simp only [List.length_cons, List.length_append] at hg
                rw [List.cons_append, parseMembersBody_succ_quote]
                simp only [List.append_assoc, List.cons_append, List.nil_append]
                rw [hsrep g' _ (by omega)]
                have hdw1 : (ws1 ++ (':' :: (ws2 ++ (pv0 :: (pvr ++ (ws3 ++ (',' ::
                    (ws4 ++ (pm0 :: (pmr ++ tl)))))))))).dropWhile isJsonWs =
                    ':' :: (ws2 ++ (pv0 :: (pvr ++ (ws3 ++ (',' ::
                    (ws4 ++ (pm0 :: (pmr ++ tl)))))))) := by
                  rw [dropWhile_all_append _ hw1all, dropWhile_cons_neg _ (by decide)]
                simp only [hdw1]
                have hdw2 : (ws2 ++ (pv0 :: (pvr ++ (ws3 ++ (',' ::
                    (ws4 ++ (pm0 :: (pmr ++ tl)))))))).dropWhile isJsonWs =
                    pv0 :: (pvr ++ (ws3 ++ (',' :: (ws4 ++ (pm0 :: (pmr ++ tl)))))) := by
                  rw [dropWhile_all_append _ hw2all, dropWhile_cons_neg _ hpv0ws]
                simp only [hdw2]
                have hgv : numGuard v (ws3 ++ (',' :: (ws4 ++ (pm0 :: (pmr ++ tl))))) :=
                  numGuard_any v (extGuard_ws_cons hw3all (by decide) _)
                have hrv := hpvrep g' (ws3 ++ (',' :: (ws4 ++ (pm0 :: (pmr ++ tl)))))
                  (by simp only [List.length_cons, List.length_append]; omega) hgv
                rw [List.cons_append] at hrv
                simp only [hrv]
                have hdw3 : (ws3 ++ (',' :: (ws4 ++ (pm0 :: (pmr ++ tl))))).dropWhile
                    isJsonWs = ',' :: (ws4 ++ (pm0 :: (pmr ++ tl))) := by
                  rw [dropWhile_all_append _ hw3all, dropWhile_cons_neg _ (by decide)]
                simp only [hdw3]
                have hdw4 : (ws4 ++ (pm0 :: (pmr ++ tl))).dropWhile isJsonWs =
                    pm0 :: (pmr ++ tl) := by
                  rw [dropWhile_all_append _ hw4all, dropWhile_cons_neg _ hpm0ws]
                simp only [hdw4]
                have hrm := hpm2rep g' tl
                  (by simp only [List.length_cons, List.length_append]; omega)
                rw [List.cons_append] at hrm
                simp only [hrm]
            · -- closing brace: last member
              next r4 heq3 =>
              obtain ⟨rfl, rfl⟩ := some_pair_inj h
              obtain ⟨ws3, hw3eq, hw3all⟩ := dropWhile_decomp isJsonWs r3
              rw [heq3] at hw3eq
              refine ⟨'"' :: (spre ++ (ws1 ++ (':' :: (ws2 ++ ((pv0 :: pvr) ++
                (ws3 ++ ['\x7d'])))))), ?_, ?_, ?_, ?_⟩
              · rw [hseq, hw1eq, hw2eq, hw3eq]
                simp
              · simp
              · exact ⟨'"' :: (spre ++ (ws1 ++ (':' :: (ws2 ++ ((pv0 :: pvr) ++ ws3))))),
                  by simp⟩
              intro g tl hg
              obtain ⟨g', rfl⟩ := succ_of_one_le (show 1 ≤ g by
                simp only [List.length_cons] at hg; omega)
              simp only [List.length_cons, List.length_append] at hg
              rw [List.cons_append, parseMembersBody_succ_quote]
              simp only [List.append_assoc, List.cons_append, List.nil_append]
              rw [hsrep g' _ (by omega)]
              have hdw1 : (ws1 ++ (':' :: (ws2 ++ (pv0 :: (pvr ++ (ws3 ++
                  ('\x7d' :: tl))))))).dropWhile isJsonWs =
                  ':' :: (ws2 ++ (pv0 :: (pvr ++ (ws3 ++ ('\x7d' :: tl))))) := by
                rw [dropWhile_all_append _ hw1all, dropWhile_cons_neg _ (by decide)]
              simp only [hdw1]
              have hdw2 : (ws2 ++ (pv0 :: (pvr ++ (ws3 ++ ('\x7d' :: tl))))).dropWhile
                  isJsonWs = pv0 :: (pvr ++ (ws3 ++ ('\x7d' :: tl))) := by
                rw [dropWhile_all_append _ hw2all, dropWhile_cons_neg _ hpv0ws]
              simp only [hdw2]
              have hgv : numGuard v (ws3 ++ ('\x7d' :: tl)) :=
                numGuard_any v (extGuard_ws_cons hw3all (by decide) _)
              have hrv := hpvrep g' (ws3 ++ ('\x7d' :: tl))
                (by simp only [List.length_cons, List.length_append]; omega) hgv
              rw [List.cons_append] at hrv
              simp only [hrv]
              have hdw3 : (ws3 ++ ('\x7d' :: tl)).dropWhile isJsonWs = '\x7d' :: tl := by
                rw [dropWhile_all_append _ hw3all, dropWhile_cons_neg _ (by decide)]
              simp only [hdw3]
            · -- neither comma nor brace
              cases h
        · -- no colon
          cases h
    · -- not a quote
      cases h

lemma elemsStep (f : Nat) (ihv : ValueSpecAt f) (ihe : ElemsSpecAt f) :
    ElemsSpecAt (f + 1) := by
  intro cs es r h
  rw [parseElemsBody_succ] at h
  cases hpv : parseValue f cs with
  | none => simp only [hpv] at h; cases h
  | some q =>
    obtain ⟨v, r1⟩ := q
    simp only [hpv] at h
    obtain ⟨pv, hpveq, hpvne, hpvobj, hpvrep⟩ := ihv _ _ _ hpv
    split at h
    · -- comma: more elements
      next r2 heq2 =>
      cases hre : parseElemsBody f (r2.dropWhile isJsonWs) with
      | none => simp only [hre] at h; cases h
      | some q2 =>
        obtain ⟨es2, r3⟩ := q2
        simp only [hre] at h
        obtain ⟨rfl, rfl⟩ := some_pair_inj h
        obtain ⟨ws, hwseq, hwsall⟩ := dropWhile_decomp isJsonWs r1
        rw [heq2] at hwseq
        obtain ⟨pe2, hpe2eq, hpe2ne, hpe2rep⟩ := ihe _ _ _ hre
        obtain ⟨ws2, hw2eq, hw2all⟩ := dropWhile_decomp isJsonWs r2
        rw [hpe2eq] at hw2eq
        rcases pe2 with _ | ⟨pe0, per⟩
        · exact absurd rfl hpe2ne
        have hpe0ws : isJsonWs pe0 = false :=
          dropWhile_head_not (by rw [hpe2eq]; rfl)
        refine ⟨pv ++ (ws ++ (',' :: (ws2 ++ (pe0 :: per)))), ?_, ?_, ?_⟩
        · rw [hpveq, hwseq, hw2eq]
          simp
        · simp [hpvne]
        intro g tl hg
        obtain ⟨g', rfl⟩ := succ_of_one_le (show 1 ≤ g by
          have := List.length_pos.mpr hpvne
          simp only [List.length_append, List.length_cons] at hg; omega)
        simp only [List.length_append, List.length_cons] at hg
        rw [parseElemsBody_succ]
        simp only [List.append_assoc, List.cons_append, List.nil_append]
        have hgv : numGuard v (ws ++ (',' :: (ws2 ++ (pe0 :: (per ++ tl))))) :=
          numGuard_any v (extGuard_ws_cons hwsall (by decide) _)
        have hrv := hpvrep g' (ws ++ (',' :: (ws2 ++ (pe0 :: (per ++ tl)))))
          (by omega) hgv
        simp only [hrv]
        have hdw1 : (ws ++ (',' :: (ws2 ++ (pe0 :: (per ++ tl))))).dropWhile isJsonWs =
            ',' :: (ws2 ++ (pe0 :: (per ++ tl))) := by
          rw [dropWhile_all_append _ hwsall, dropWhile_cons_neg _ (by decide)]
        simp only [hdw1]
        have hdw2 : (ws2 ++ (pe0 :: (per ++ tl))).dropWhile isJsonWs =
            pe0 :: (per ++ tl) := by
          rw [dropWhile_all_append _ hw2all, dropWhile_cons_neg _ hpe0ws]
        simp only [hdw2]
        have hre' := hpe2rep g' tl (by simp only [List.length_cons]; omega)
        rw [List.cons_append] at hre'
        simp only [hre']
    · -- closing bracket: last element
      next r2 heq2 =>
      obtain ⟨rfl, rfl⟩ := some_pair_inj h
      obtain ⟨ws, hwseq, hwsall⟩ := dropWhile_decomp isJsonWs r1
      rw [heq2] at hwseq
      refine ⟨pv ++ (ws ++ [']']), ?_, ?_, ?_⟩
      · rw [hpveq, hwseq]
        simp
      · simp [hpvne]
      intro g tl hg
      obtain ⟨g', rfl⟩ := succ_of_one_le (show 1 ≤ g by
        have := List.length_pos.mpr hpvne
        simp only [List.length_append, List.length_cons] at hg; omega)
      simp only [List.length_append, List.length_cons] at hg
      rw [parseElemsBody_succ]
      simp only [List.append_assoc, List.cons_append, List.nil_append]
      have hgv : numGuard v (ws ++ (']' :: tl)) :=
        numGuard_any v (extGuard_ws_cons hwsall (by decide) _)
      have hrv := hpvrep g' (ws ++ (']' :: tl)) (by omega) hgv
      simp only [hrv]
      have hdw1 : (ws ++ (']' :: tl)).dropWhile isJsonWs = ']' :: tl := by
        rw [dropWhile_all_append _ hwsall, dropWhile_cons_neg _ (by decide)]
      simp only [hdw1]
    · -- neither
      cases h

lemma parserSpec : ∀ fuel : Nat, ValueSpecAt fuel ∧ MembersSpecAt fuel ∧ ElemsSpecAt fuel := by
  intro fuel
  induction fuel with
  | zero =>
    refine ⟨fun cs v r h => ?_, fun cs ms r h => ?_, fun cs es r h => ?_⟩ <;> cases h
  | succ f ih =>
    exact ⟨valueStep f ih.2.1 ih.2.2, membersStep f ih.1 ih.2.1,
      elemsStep f ih.1 ih.2.2⟩

lemma stripTrailingCommas_id {s : List Char} (h : hasTrailingCommaPat s = false) :
    ∀ f, stripTrailingCommas f s = s := by
  intro f
  induction f generalizing s with
  | zero => rfl
  | succ k ih =>
    cases s with
    | nil => rfl
    | cons c rest =>
      rw [hasTrailingCommaPat] at h
      rcases Bool.or_eq_false_iff.mp h with ⟨h1, h2⟩
      rw [stripTrailingCommas]
      by_cases hc : c == ','
      · rw [if_pos hc]
        cases hw : wsThenClose rest with
        | some t =>
          exfalso
          rw [hc, Bool.true_and, hw] at h1
          cases h1
        | none => rw [ih h2]
      · rw [if_neg hc, ih h2]

lemma isJsonWs_ne_brace {c : Char} (h : isJsonWs c = true) : c ≠ '\x7b' ∧ c ≠ '\x7d' := by
  simp only [isJsonWs, Bool.or_eq_true_iff] at h
  rcases h with ((h | h) | h) | h <;> (obtain rfl := eq_of_beq h; exact ⟨by decide, by decide⟩)

/-- Claim C7 (amended).  Tier-2 brace-matched extraction agrees with tier-1
strict parsing on every text whose strict parse succeeds with an object,
provided the text contains no occurrence of a comma followed by optional
whitespace and a closing brace or bracket.  On such a text the slice from
the first opening brace to the last closing brace is exactly the consumed
span of the strict parse, the trailing-comma strip leaves it unchanged, and
the re-parse returns the same record.  (The side condition is necessary:
`PE2.tier2_differs_on_valid_text` exhibits a strictly valid record whose
string value contains the pattern, where the two tiers disagree.) -/
theorem tier2_agrees_on_valid (c : List Char) (v : Json) (ms : List (String × Json))
    (h1 : parseJsonText c = some v)
    (h2 : v = Json.obj ms)
    (h3 : hasTrailingCommaPat c = false) :
    tier2Parse c = some v := by
  subst h2
  rw [parseJsonText] at h1
  cases hpv : parseValue (2 * c.length + 2) (c.dropWhile isJsonWs) with
  | none => rw [hpv] at h1; cases h1
  | some q =>
    obtain ⟨v0, rest⟩ := q
    simp only [hpv] at h1
    by_cases hre : (rest.dropWhile isJsonWs).isEmpty
    · rw [if_pos hre] at h1
      obtain rfl := Option.some.inj h1
      obtain ⟨pre, hdec, hpne, hobjsh, hrep⟩ := (parserSpec _).1 _ _ _ hpv
      obtain ⟨mid, hshape⟩ := hobjsh ms rfl
      subst hshape
      obtain ⟨ws1, hc_eq, hws1⟩ := dropWhile_decomp isJsonWs c
      rw [hdec] at hc_eq
      have hrest_ws : ∀ d ∈ rest, isJsonWs d = true :=
        dropWhile_nil_all (List.isEmpty_iff.mp hre)
      have hcform : c = ws1 ++ ('\x7b' :: (mid ++ ['\x7d'])) ++ rest := by
        rw [hc_eq]
        simp
      have hbs : braceSlice c = some ('\x7b' :: (mid ++ ['\x7d'])) := by
        have hbs0 : braceSlice (ws1 ++ ('\x7b' :: mid ++ ['\x7d']) ++ rest) =
            some ('\x7b' :: mid ++ ['\x7d']) := braceSlice_decomp
          (fun d hd => (isJsonWs_ne_brace (hws1 d hd)).1)
          (fun d hd => (isJsonWs_ne_brace (hrest_ws d hd)).2)
        simp only [List.cons_append] at hbs0
        rw [hcform]
        exact hbs0
      have hpat : hasTrailingCommaPat ('\x7b' :: (mid ++ ['\x7d'])) = false := by
        rw [hcform] at h3
        exact hasTrailingCommaPat_infix h3
      have hr := hrep (2 * ('\x7b' :: (mid ++ ['\x7d'])).length + 2) []
        (by omega) trivial
      rw [List.append_nil] at hr
      rw [tier2Parse, hbs, Option.some_bind,
        stripTrailingCommas_id hpat, parseJsonText,
        dropWhile_cons_neg _ (by decide), hr]
      rfl
    · rw [if_neg hre] at h1
      cases h1

/-- Witness for `tier2_agrees_on_valid` at a concrete strictly valid
record with no trailing-comma pattern. -/
theorem tier2_agrees_on_valid_witness :
    tier2Parse ("\x7b\"a\":1\x7d".data) = some (Json.obj [("a", Json.num "1")]) :=
  tier2_agrees_on_valid _ _ [("a", Json.num "1")] (by rfl) rfl (by rfl)

end PE2
